import Mathlib

/-!
# Verification of the recipe ETL pipeline core

Shallow embedding of the normalize → validate → upsert pipeline of the
repository (`src/transform/ingredient_normalizer.py`,
`src/transform/transform_recipes.py`, `src/quality/data_quality.py`,
`src/load/load_to_db.py`), together with proofs and refutations of the
spec's testable properties.

Modelling conventions:
* Python strings are `String` / `List Char`; processing is done on
  `List Char` and wrapped at the boundaries.
* Python `None` is `Option.none`; JSON scalar values flowing through the
  untyped record dictionaries are `JVal` (string or integer — the two
  shapes the pipeline actually meets; other scalar shapes are irrelevant
  to every property below and are omitted).
* Regular expressions used by the normalizer are embedded as a small
  backtracking matcher over a token list, with Python `re` semantics:
  ordered alternation, greedy quantifiers with backtracking.  A fuel
  argument (one unit per token) makes the recursion structural so that
  the kernel can evaluate matches; `ts.length + 1` fuel is always enough
  since each step consumes exactly one token.
* Python floats in the quality checker are modelled as `ℚ`.
-/

namespace RecipeEtl

/-! ## Python string primitives -/

/-- ASCII whitespace, the characters matched by Python's `\s` and
stripped by `str.strip` (for the ASCII inputs this pipeline processes). -/
def isPySpace (c : Char) : Bool :=
  c = ' ' || c = '\t' || c = '\n' || c = '\r' || c = '\x0b' || c = '\x0c'

/-- Python regex `\w`: letters, digits and underscore. -/
def isWordChar (c : Char) : Bool :=
  c.isAlphanum || c = '_'

/-- `str.strip()` on a character list. -/
def pyStrip (l : List Char) : List Char :=
  ((l.dropWhile isPySpace).reverse.dropWhile isPySpace).reverse

/-- `str.lower()` (ASCII). -/
def pyLower (l : List Char) : List Char :=
  l.map Char.toLower

/-- `re.sub(r"[^\w\s]", "", s)`: delete every character that is neither a
word character nor whitespace. -/
def removePunct (l : List Char) : List Char :=
  l.filter (fun c => isWordChar c || isPySpace c)

/-- Worker for `collapseSpaces`: `prevSpace` records whether the
previous character belonged to a whitespace run (whose single
replacement space has already been emitted). -/
def collapseGo (prevSpace : Bool) : List Char → List Char
  | [] => []
  | c :: rest =>
    if isPySpace c then
      if prevSpace then collapseGo true rest
      else ' ' :: collapseGo true rest
    else c :: collapseGo false rest

/-- `re.sub(r"\s+", " ", s)`: replace each maximal whitespace run by a
single space. -/
def collapseSpaces (l : List Char) : List Char :=
  collapseGo false l

/-! ## A small backtracking regex matcher

The three garbage-prefix patterns are linear sequences of literals,
character-class quantifiers (`*`, `+`, `?`).  `matchToks` returns the
remainder of the input after the preferred (Python-semantics: greedy,
backtracking, ordered) match of the whole token list, or `none`. -/

/-- One regex token: a literal string, `p+`, `p*`, or `p?` for a
character class `p`. -/
inductive Tok where
  | lit : List Char → Tok
  | many1 : (Char → Bool) → Tok
  | many0 : (Char → Bool) → Tok
  | opt : (Char → Bool) → Tok

/-- `[hi, hi-1, ..., lo]` (empty if `hi < lo`): the candidate lengths a
greedy quantifier tries, longest first. -/
def descList (hi lo : Nat) : List Nat :=
  (List.range' lo (hi + 1 - lo)).reverse

/-- Try candidate drop-counts in order, returning the first success. -/
def firstSome (f : Nat → Option (List Char)) : List Nat → Option (List Char)
  | [] => none
  | k :: ks =>
    match f k with
    | some r => some r
    | none => firstSome f ks

/-- One step of the matcher; `rec` handles the remaining tokens. -/
def matchStep (rec : List Tok → List Char → Option (List Char)) :
    List Tok → List Char → Option (List Char)
  | [], s => some s
  | .lit l :: ts, s =>
    if l.isPrefixOf s then rec ts (s.drop l.length) else none
  | .many1 p :: ts, s =>
    firstSome (fun k => rec ts (s.drop k)) (descList (s.takeWhile p).length 1)
  | .many0 p :: ts, s =>
    firstSome (fun k => rec ts (s.drop k)) (descList (s.takeWhile p).length 0)
  | .opt p :: ts, s =>
    match s with
    | [] => rec ts []
    | c :: rest =>
      if p c then
        match rec ts rest with
        | some r => some r
        | none => rec ts (c :: rest)
      else rec ts (c :: rest)

/-- Fueled matcher; fuel decreases by one per token consumed. -/
def matchToksF : Nat → List Tok → List Char → Option (List Char)
  | 0, _, _ => none
  | fuel + 1, ts, s => matchStep (matchToksF fuel) ts s

/-- Match a token list against `s`; `ts.length + 1` fuel always suffices
because each `matchStep` consumes exactly one token. -/
def matchToks (ts : List Tok) (s : List Char) : Option (List Char) :=
  matchToksF (ts.length + 1) ts s

/-! ## IngredientNormalizer (`src/transform/ingredient_normalizer.py`) -/

/-- `PLURAL_REPLACEMENTS`, in dict insertion order (the duplicate
`"potatoes"` literal in the source collapses to a single dict entry). -/
def pluralReplacements : List (String × String) :=
  [("eggs", "egg"), ("tomatoes", "tomato"), ("potatoes", "potato"),
   ("chilies", "chili"), ("berries", "berry"), ("avocados", "avocado"),
   ("coconuts", "coconut"), ("cucumbers", "cucumber"), ("leeks", "leek"),
   ("onions", "onion"), ("pineapples", "pineapple"), ("pumpkins", "pumpkin"),
   ("radishes", "radish"), ("strawberries", "strawberry"),
   ("bananas", "banana"), ("apples", "apple"), ("oranges", "orange"),
   ("pears", "pear"), ("plums", "plum"), ("cherries", "cherry"),
   ("grapes", "grape"), ("melons", "melon"), ("nectarines", "nectarine")]

/-- `^\d+\s*[a-zA-Z]*\s+of\s+` (e.g. "3 oz of pearl tapioca"). -/
def garbagePat1 : List Tok :=
  [.many1 Char.isDigit, .many0 isPySpace, .many0 Char.isAlpha,
   .many1 isPySpace, .lit ['o', 'f'], .many1 isPySpace]

/-- `^\d+\s+[a-zA-Z]+\s+` (e.g. "4 large onions"). -/
def garbagePat2 : List Tok :=
  [.many1 Char.isDigit, .many1 isPySpace, .many1 Char.isAlpha,
   .many1 isPySpace]

/-- `^\d+[\./]?\d*\s+[a-zA-Z]+\s+` (e.g. "1 1/2 cups flour"). -/
def garbagePat3 : List Tok :=
  [.many1 Char.isDigit, .opt (fun c => c = '.' || c = '/'),
   .many0 Char.isDigit, .many1 isPySpace, .many1 Char.isAlpha,
   .many1 isPySpace]

/-- `GARBAGE_PREFIX_RE.sub("", s)`: all three alternatives are anchored,
so `re.sub` removes at most the single leftmost match (ordered
alternation, first pattern that matches wins), leaving the remainder. -/
def stripGarbage (s : List Char) : List Char :=
  match matchToks garbagePat1 s with
  | some r => r
  | none =>
    match matchToks garbagePat2 s with
    | some r => r
    | none =>
      match matchToks garbagePat3 s with
      | some r => r
      | none => s

/-- The plural-replacement loop: exact whole-string matches only. -/
def applyPlurals (l : List Char) : List Char :=
  pluralReplacements.foldl
    (fun acc pr => if acc = pr.1.data then pr.2.data else acc) l

/-- The stoplist `{"n/a", "none", "null", "unknown"}`. -/
def nameStoplist : List (List Char) :=
  ["n/a", "none", "null", "unknown"].map String.data

/-- The fully processed form of a (non-blank) raw name: trim + lowercase,
punctuation removal, whitespace collapse, garbage-prefix strip, plural
substitution — everything before the final validity checks. -/
def processedName (s : String) : List Char :=
  applyPlurals
    (pyStrip (stripGarbage (pyStrip (collapseSpaces (removePunct (pyLower (pyStrip s.data)))))))

/-- `normalize_ingredient_name`; the argument is `Option String` because
the call sites pass `item.get("ingredient")`, which may be absent/null. -/
def normalizeIngredientName (name : Option String) : Option String :=
  match name with
  | none => none
  | some s =>
    -- `if not name or not name.strip(): return None`
    if s.data = [] ∨ pyStrip s.data = [] then none
    else
      let l := processedName s
      if l.length < 2 then none
      else if l ∈ nameStoplist then none
      else some (String.mk l)

/-- `str.replace(pat, "")` for the fixed pattern `"to taste"`:
left-to-right, non-overlapping removal of every occurrence. -/
def removeToTaste : List Char → List Char
  | 't' :: 'o' :: ' ' :: 't' :: 'a' :: 's' :: 't' :: 'e' :: rest =>
    removeToTaste rest
  | c :: rest => c :: removeToTaste rest
  | [] => []

/-- `normalize_measure`. -/
def normalizeMeasure (measure : Option String) : Option String :=
  match measure with
  | none => none
  | some s =>
    if s.data = [] ∨ pyStrip s.data = [] then none
    else
      let l := pyStrip (removeToTaste (pyLower (pyStrip s.data)))
      if l = [] ∨ l = "n/a".data ∨ l = "null".data then none
      else some (String.mk l)

/-! ## RecipeNormalizer (`src/transform/transform_recipes.py`) -/

/-- A JSON scalar as it reaches the transform from the raw files: the
sources deliver ids and names either as strings or as integers (which is
why `flatten` coerces `source_id` with `str(...)`). -/
inductive JVal where
  | s : String → JVal
  | i : Int → JVal
  deriving DecidableEq, Repr

/-- Python `str(...)` on a `JVal`. -/
def pyStr : JVal → String
  | .s v => v
  | .i n => toString n

/-- One entry of a raw recipe's `ingredients` array;
`ingredient`/`measure` may be absent or null (`none`). -/
structure RawIngredient where
  ingredient : Option String
  measure : Option JVal
  deriving DecidableEq, Repr

/-- A raw recipe record (an untyped JSON dict in the source; `none`
models an absent or null field). -/
structure RawRecipe where
  source_name : Option JVal
  source_id : Option JVal
  name : Option JVal
  category : Option JVal
  area : Option JVal
  instructions : Option JVal
  thumbnail : Option JVal
  ingredients : Option (List RawIngredient)
  deriving DecidableEq, Repr

/-- A normalized ingredient entry (`{"ingredient": ..., "measure": ...}`
appended by `flatten`). -/
structure NIng where
  ingredient : String
  measure : Option JVal
  deriving DecidableEq, Repr

/-- A normalized recipe row, one row of the DataFrame `flatten` builds:
`source_id` is coerced to string, `source_name` is kept as retrieved
(non-null, enforced by the key guard), other fields pass through. -/
structure NRow where
  source_name : JVal
  source_id : String
  name : Option JVal
  category : Option JVal
  area : Option JVal
  instructions : Option JVal
  thumbnail : Option JVal
  ingredients : List NIng
  deriving DecidableEq, Repr

/-- The measure stored for a surviving ingredient:
`normalize_measure(measure) if isinstance(measure, str) else measure`. -/
def normMeasureVal : Option JVal → Option JVal
  | some (.s v) => (normalizeMeasure (some v)).map JVal.s
  | other => other

/-- One raw ingredient entry through the normalizer; `none` when the
entry is dropped.  The source keeps an entry under `if ingredient_name:`
(Python truthiness), i.e. when the normalized name is neither `None` nor
empty — the normalizer never returns an empty string, but the test is
embedded as written. -/
def normIngEntry (it : RawIngredient) : Option NIng :=
  match normalizeIngredientName it.ingredient with
  | none => none
  | some nm =>
    if nm = "" then none
    else some ⟨nm, normMeasureVal it.measure⟩

/-- The normalized ingredient list of one record
(`record.get("ingredients") or []`, then the append loop). -/
def normIngs (ings : Option (List RawIngredient)) : List NIng :=
  (ings.getD []).filterMap normIngEntry

/-- The raw natural key of a record when both components are present
(`key = (record.get("source_name"), record.get("source_id"))` with
`None in key` false); `none` when a component is missing. -/
def keyPair (r : RawRecipe) : Option (JVal × JVal) :=
  match r.source_name, r.source_id with
  | some sn, some sid => some (sn, sid)
  | _, _ => none

/-- The row appended for a surviving record.  (For records kept by
`flatten` both key fields are present, so the `getD` defaults are never
used; the function is total for use in statements.) -/
def normalizedOf (r : RawRecipe) : NRow :=
  { source_name := r.source_name.getD (JVal.s "")
    source_id := pyStr (r.source_id.getD (JVal.s ""))
    name := r.name
    category := r.category
    area := r.area
    instructions := r.instructions
    thumbnail := r.thumbnail
    ingredients := normIngs r.ingredients }

/-- The record-selection loop of `flatten`: keep the first record of
each valid `(source_name, source_id)` key, drop records with a missing
key component and later duplicates.  `seen` is the dedup set. -/
def firstOccs : List RawRecipe → List (JVal × JVal) → List RawRecipe
  | [], _ => []
  | r :: rest, seen =>
    match keyPair r with
    | some p =>
      if p ∈ seen then firstOccs rest seen
      else r :: firstOccs rest (p :: seen)
    | none => firstOccs rest seen

/-- `flatten` (`transform_recipes.py:33`): the normalized DataFrame as a
list of rows. -/
def flatten (recipes : List RawRecipe) : List NRow :=
  (firstOccs recipes []).map normalizedOf

/-! ## Claims C3 and C4: rejection set and garbage-prefix examples

C3 — the spec's rejection set.  Blank and null inputs are rejected as
claimed, but `normalize_name("N/A")` is *not* `None`: the punctuation
strip (`re.sub(r"[^\w\s]", "", ...)`) runs before the stoplist test and
deletes the `/`, so the processed form is `"na"`, which has length 2 and
is not in `{"n/a", "none", "null", "unknown"}`.  The stoplist entry
`"n/a"` is unreachable for the same reason — the code contradicts its
own stoplist. -/

/-- C3: evaluation of `normalize_ingredient_name` at the claimed
rejection set.  `""`, blank and null inputs give `None` and final forms
in the stoplist or shorter than 2 characters give `None`, as claimed,
but the failing input `"N/A"` yields `"na"`, not `None`. -/
theorem c3_rejection_set_eval :
    normalizeIngredientName (some "") = none ∧
    normalizeIngredientName (some "   ") = none ∧
    normalizeIngredientName none = none ∧
    normalizeIngredientName (some "none") = none ∧
    normalizeIngredientName (some "Unknown") = none ∧
    normalizeIngredientName (some "x") = none ∧
    normalizeIngredientName (some "N/A") = some "na" := by
  decide

/-- C4: the three worked garbage-prefix examples.  The first two strip
as specified, but `"1 1/2 cups flour"` does not: the punctuation strip
removes the `/` before the prefix regex runs, producing
`"1 12 cups flour"`, which none of the three (anchored) prefix patterns
match — the `[\./]` character class of the third pattern is unreachable,
contradicting the source's own comment for that pattern. -/
theorem c4_garbage_prefix_eval :
    normalizeIngredientName (some "4 large onions") = some "onion" ∧
    normalizeIngredientName (some "3 oz of pearl tapioca") = some "pearl tapioca" ∧
    normalizeIngredientName (some "1 1/2 cups flour") = some "1 12 cups flour" := by
  decide

/-! ## Claim C2: deduplication by `(source_name, source_id)` -/

/-- Every record kept by the dedup loop has a valid key that was not in
the `seen` set the loop started from. -/
theorem mem_firstOccs_key {rs : List RawRecipe} {seen : List (JVal × JVal)}
    {r : RawRecipe} (h : r ∈ firstOccs rs seen) :
    ∃ p, keyPair r = some p ∧ p ∉ seen := by
  induction rs generalizing seen with
  | nil => simp [firstOccs] at h
  | cons a rest ih =>
    rw [firstOccs] at h
    cases hk : keyPair a with
    | none => simp only [hk] at h; exact ih h
    | some p =>
      simp only [hk] at h
      by_cases hp : p ∈ seen
      · rw [if_pos hp] at h; exact ih h
      · rw [if_neg hp] at h
        rcases List.mem_cons.1 h with rfl | h
        · exact ⟨p, hk, hp⟩
        · obtain ⟨q, hq, hqs⟩ := ih h
          exact ⟨q, hq, fun hmem => hqs (List.mem_cons_of_mem _ hmem)⟩

/-- The keys of the deduplicated record list are pairwise distinct. -/
theorem firstOccs_keys_nodup (rs : List RawRecipe) (seen : List (JVal × JVal)) :
    ((firstOccs rs seen).map keyPair).Nodup := by
  induction rs generalizing seen with
  | nil => simp [firstOccs]
  | cons a rest ih =>
    rw [firstOccs]
    cases hk : keyPair a with
    | none => simp only [hk]; exact ih seen
    | some p =>
      simp only [hk]
      by_cases hp : p ∈ seen
      · rw [if_pos hp]; exact ih seen
      · rw [if_neg hp, List.map_cons]
        refine List.Nodup.cons ?_ (ih (p :: seen))
        intro hmem
        rw [hk] at hmem
        obtain ⟨r', hr', hkey⟩ := List.mem_map.1 hmem
        obtain ⟨q, hq, hqs⟩ := mem_firstOccs_key hr'
        rw [hq] at hkey
        exact hqs ((Option.some.inj hkey) ▸ List.mem_cons_self p seen)

/-- Every record kept by the dedup loop is the first record of the input
bearing its key. -/
theorem firstOccs_is_first {rs : List RawRecipe} {seen : List (JVal × JVal)}
    {r : RawRecipe} (h : r ∈ firstOccs rs seen) :
    ∃ pre post, rs = pre ++ r :: post ∧ ∀ r' ∈ pre, keyPair r' ≠ keyPair r := by
  induction rs generalizing seen with
  | nil => simp [firstOccs] at h
  | cons a rest ih =>
    rw [firstOccs] at h
    cases hk : keyPair a with
    | none =>
      simp only [hk] at h
      obtain ⟨q, hq, _⟩ := mem_firstOccs_key h
      obtain ⟨pre, post, heq, hpre⟩ := ih h
      refine ⟨a :: pre, post, by rw [heq]; rfl, ?_⟩
      intro r' hr'
      rcases List.mem_cons.1 hr' with rfl | hr'
      · rw [hk, hq]; exact fun hcon => Option.noConfusion hcon
      · exact hpre r' hr'
    | some p =>
      simp only [hk] at h
      by_cases hp : p ∈ seen
      · rw [if_pos hp] at h
        obtain ⟨q', hq', hqs'⟩ := mem_firstOccs_key h
        obtain ⟨pre, post, heq, hpre⟩ := ih h
        refine ⟨a :: pre, post, by rw [heq]; rfl, ?_⟩
        intro r' hr'
        rcases List.mem_cons.1 hr' with rfl | hr'
        · rw [hk, hq']
          intro hcon
          exact hqs' ((Option.some.inj hcon) ▸ hp)
        · exact hpre r' hr'
      · rw [if_neg hp] at h
        rcases List.mem_cons.1 h with rfl | h
        · exact ⟨[], rest, rfl, by simp⟩
        · obtain ⟨q', hq', hqs'⟩ := mem_firstOccs_key h
          obtain ⟨pre, post, heq, hpre⟩ := ih h
          refine ⟨a :: pre, post, by rw [heq]; rfl, ?_⟩
          intro r' hr'
          rcases List.mem_cons.1 hr' with rfl | hr'
          · rw [hk, hq']
            intro hcon
            exact hqs' ((Option.some.inj hcon) ▸ List.mem_cons_self p seen)
          · exact hpre r' hr'

/-- Every valid key occurring in the batch (and not already seen) is
represented in the deduplicated output. -/
theorem firstOccs_complete {rs : List RawRecipe} {seen : List (JVal × JVal)}
    {r : RawRecipe} {p : JVal × JVal} (hmem : r ∈ rs)
    (hkey : keyPair r = some p) (hseen : p ∉ seen) :
    ∃ r', r' ∈ firstOccs rs seen ∧ keyPair r' = some p := by
  induction rs generalizing seen with
  | nil => simp at hmem
  | cons a rest ih =>
    rw [firstOccs]
    cases hk : keyPair a with
    | none =>
      simp only [hk]
      rcases List.mem_cons.1 hmem with rfl | hmem'
      · rw [hk] at hkey; exact absurd hkey (by simp)
      · exact ih hmem' hseen
    | some pa =>
      simp only [hk]
      by_cases hp : pa ∈ seen
      · rw [if_pos hp]
        rcases List.mem_cons.1 hmem with rfl | hmem'
        · rw [hk] at hkey
          exact absurd ((Option.some.inj hkey) ▸ hp) hseen
        · exact ih hmem' hseen
      · rw [if_neg hp]
        rcases List.mem_cons.1 hmem with rfl | hmem'
        · exact ⟨r, List.mem_cons_self _ _, hkey⟩
        · by_cases hpp : p = pa
          · exact ⟨a, List.mem_cons_self _ _, by rw [hk, hpp]⟩
          · obtain ⟨r', hr', hk'⟩ := ih hmem' (by
              intro hcon
              rcases List.mem_cons.1 hcon with h1 | h1
              · exact hpp h1
              · exact hseen h1)
            exact ⟨r', List.mem_cons_of_mem _ hr', hk'⟩

/-- A batch witnessing the failure of C2's coerced-pair distinctness:
the key `("themealdb", 1)` (integer id) occurs twice, and a third record
carries the *string* id `"1"`. -/
def c2Batch : List RawRecipe :=
  [{ source_name := some (.s "themealdb"), source_id := some (.i 1),
     name := some (.s "Cake"), category := none, area := none,
     instructions := none, thumbnail := none, ingredients := none },
   { source_name := some (.s "themealdb"), source_id := some (.i 1),
     name := some (.s "Cake Dup"), category := none, area := none,
     instructions := none, thumbnail := none, ingredients := none },
   { source_name := some (.s "themealdb"), source_id := some (.s "1"),
     name := some (.s "Other Cake"), category := none, area := none,
     instructions := none, thumbnail := none, ingredients := none }]

/-- C2 counterexample: in `c2Batch` the raw key `("themealdb", 1)`
occurs more than once, yet the `(source_name, source_id)` pairs of the
normalized output are *not* pairwise distinct — deduplication happens on
the raw key before `source_id` is coerced with `str(...)`, and the
distinct raw ids `1` and `"1"` coerce to the same string. -/
theorem c2_counterexample :
    (c2Batch.countP
        (fun r => keyPair r = some (JVal.s "themealdb", JVal.i 1)) = 2) ∧
    ¬ ((flatten c2Batch).map (fun n => (n.source_name, n.source_id))).Nodup := by
  decide

/-- C2 (amended): for every batch in which some raw `(source_name,
source_id)` key occurs more than once, the output of `flatten` contains
exactly one record per distinct *raw* key — the record built from the
first occurrence of that key — so the raw keys of the output are
pairwise distinct; the `(source_name, source_id)` pairs obtained after
`source_id` is coerced to string are pairwise distinct only under the
additional hypothesis that the coercion does not identify two distinct
raw keys of the batch. -/
theorem c2_dedup_amended (rs : List RawRecipe)
    (_hdup : ∃ k, 2 ≤ rs.countP (fun r => keyPair r = some k)) :
    flatten rs = (firstOccs rs []).map normalizedOf ∧
    ((firstOccs rs []).map keyPair).Nodup ∧
    (∀ r ∈ firstOccs rs [],
      ∃ pre post, rs = pre ++ r :: post ∧ ∀ r' ∈ pre, keyPair r' ≠ keyPair r) ∧
    (∀ r ∈ rs, ∀ p, keyPair r = some p →
      ∃ r', r' ∈ firstOccs rs [] ∧ keyPair r' = some p) ∧
    ((∀ r ∈ firstOccs rs [], ∀ r' ∈ firstOccs rs [],
        (normalizedOf r).source_name = (normalizedOf r').source_name →
        (normalizedOf r).source_id = (normalizedOf r').source_id →
        keyPair r = keyPair r') →
      ((flatten rs).map (fun n => (n.source_name, n.source_id))).Nodup) := by
  refine ⟨rfl, firstOccs_keys_nodup rs [], ?_, ?_, ?_⟩
  · exact fun r hr => firstOccs_is_first hr
  · exact fun r hr p hp => firstOccs_complete hr hp (List.not_mem_nil p)
  · intro hinj
    have hnodup : (firstOccs rs []).Nodup :=
      (firstOccs_keys_nodup rs []).of_map
    have : ((firstOccs rs []).map
        (fun r => ((normalizedOf r).source_name, (normalizedOf r).source_id))).Nodup := by
      refine List.Nodup.map_on ?_ hnodup
      intro x hx y hy hxy
      have hkey : keyPair x = keyPair y :=
        hinj x hx y hy (congrArg Prod.fst hxy) (congrArg Prod.snd hxy)
      exact List.inj_on_of_nodup_map (firstOccs_keys_nodup rs []) hx hy hkey
    simpa [flatten, List.map_map, Function.comp] using this

/-- Witness for C2 (amended): the theorem applied to `c2Batch`, whose
key `("themealdb", 1)` repeats. -/
theorem c2_dedup_amended_witness :
    flatten c2Batch = (firstOccs c2Batch []).map normalizedOf ∧
    ((firstOccs c2Batch []).map keyPair).Nodup ∧
    (∀ r ∈ firstOccs c2Batch [],
      ∃ pre post, c2Batch = pre ++ r :: post ∧ ∀ r' ∈ pre, keyPair r' ≠ keyPair r) ∧
    (∀ r ∈ c2Batch, ∀ p, keyPair r = some p →
      ∃ r', r' ∈ firstOccs c2Batch [] ∧ keyPair r' = some p) ∧
    ((∀ r ∈ firstOccs c2Batch [], ∀ r' ∈ firstOccs c2Batch [],
        (normalizedOf r).source_name = (normalizedOf r').source_name →
        (normalizedOf r).source_id = (normalizedOf r').source_id →
        keyPair r = keyPair r') →
      ((flatten c2Batch).map (fun n => (n.source_name, n.source_id))).Nodup) :=
  c2_dedup_amended c2Batch ⟨(JVal.s "themealdb", JVal.i 1), by decide⟩

/-! ## Claim C6: ingredient lists are order-preserving filter-maps -/

/-- The normalizer never returns the empty string: a processed form with
fewer than 2 characters is rejected. -/
theorem normalizeIngredientName_ne_some_empty (x : Option String) :
    normalizeIngredientName x ≠ some "" := by
  match x with
  | none => simp [normalizeIngredientName]
  | some s =>
    rw [normalizeIngredientName]
    by_cases h1 : s.data = [] ∨ pyStrip s.data = []
    · rw [if_pos h1]; exact fun hcon => Option.noConfusion hcon
    · rw [if_neg h1]
      by_cases h2 : (processedName s).length < 2
      · rw [if_pos h2]; exact fun hcon => Option.noConfusion hcon
      · rw [if_neg h2]
        by_cases h3 : processedName s ∈ nameStoplist
        · rw [if_pos h3]; exact fun hcon => Option.noConfusion hcon
        · rw [if_neg h3]
          intro hcon
          have hs : String.mk (processedName s) = String.mk [] :=
            Option.some.inj hcon
          have hlist : processedName s = [] := by injection hs
          exact h2 (by rw [hlist]; decide)

/-- An ingredient entry is dropped by the append loop exactly when its
name normalizes to `None` (the extra Python-truthiness test for the
empty string never fires). -/
theorem normIngEntry_none_iff (it : RawIngredient) :
    normIngEntry it = none ↔ normalizeIngredientName it.ingredient = none := by
  cases heq : normalizeIngredientName it.ingredient with
  | none => simp [normIngEntry, heq]
  | some nm =>
    have hne : nm ≠ "" := by
      intro hcon
      exact normalizeIngredientName_ne_some_empty it.ingredient (hcon ▸ heq)
    simp [normIngEntry, heq, hne]

/-- C6: every row of `flatten`'s output comes from a surviving raw
record, and its normalized ingredient list is exactly the
order-preserving `filterMap` of that record's raw ingredient sequence:
entries whose name normalizes to `None` are dropped together with their
measure, survivors keep their relative order, nothing is added. -/
theorem c6_ingredients_filter_map (rs : List RawRecipe) (row : NRow)
    (h : row ∈ flatten rs) :
    ∃ r, r ∈ rs ∧ row = normalizedOf r ∧
      row.ingredients = (r.ingredients.getD []).filterMap normIngEntry ∧
      ∀ it : RawIngredient,
        normIngEntry it = none ↔ normalizeIngredientName it.ingredient = none := by
  obtain ⟨r, hr, hrow⟩ := List.mem_map.1 h
  obtain ⟨pre, post, heq, -⟩ := firstOccs_is_first hr
  subst hrow
  exact ⟨r, by rw [heq]; exact List.mem_append_right _ (List.mem_cons_self _ _),
    rfl, rfl, normIngEntry_none_iff⟩

/-- A one-record batch exercising every drop case of the ingredient
loop: a valid entry, an empty name, a null name, and a plural. -/
def c6Batch : List RawRecipe :=
  [{ source_name := some (.s "themealdb"), source_id := some (.s "7"),
     name := some (.s "Cake"), category := none, area := none,
     instructions := none, thumbnail := none,
     ingredients := some
       [⟨some "Eggs", some (.s "2")⟩, ⟨some "", some (.s "pinch")⟩,
        ⟨none, some (.i 3)⟩, ⟨some "Tomatoes", none⟩] }]

/-- The single normalized row `flatten` produces for `c6Batch`. -/
def c6Row : NRow :=
  { source_name := .s "themealdb", source_id := "7",
    name := some (.s "Cake"), category := none, area := none,
    instructions := none, thumbnail := none,
    ingredients := [⟨"egg", some (.s "2")⟩, ⟨"tomato", none⟩] }

/-- Witness for C6: the theorem applied to the concrete batch. -/
theorem c6_ingredients_filter_map_witness :
    c6Row ∈ flatten c6Batch ∧
    ∃ r, r ∈ c6Batch ∧ c6Row = normalizedOf r ∧
      c6Row.ingredients = (r.ingredients.getD []).filterMap normIngEntry ∧
      ∀ it : RawIngredient,
        normIngEntry it = none ↔ normalizeIngredientName it.ingredient = none :=
  ⟨by decide, c6_ingredients_filter_map c6Batch c6Row (by decide)⟩

/-! ## Claim C5: fixed-point behaviour of the name normalizer

Groundwork: a canonical-shape predicate on character lists that is
established by the cleanup stages of `normalize_ingredient_name` and
makes each cleanup stage the identity on a second run. -/

/-- No two adjacent spaces. -/
def noTwoSpaces (a b : Char) : Prop := ¬(a = ' ' ∧ b = ' ')

instance : DecidableRel noTwoSpaces := fun a b =>
  inferInstanceAs (Decidable (¬(a = ' ' ∧ b = ' ')))

/-- Canonical shape of a processed name: word characters and single
inner spaces only, all lowercase-stable, no leading/trailing space. -/
def GoodName (l : List Char) : Prop :=
  (∀ c ∈ l, isWordChar c = true ∨ c = ' ') ∧
  (∀ c ∈ l, Char.toLower c = c) ∧
  l.Chain' noTwoSpaces ∧
  l.head? ≠ some ' ' ∧
  l.getLast? ≠ some ' '

theorem toNat_ofNat_valid {n : Nat} (h : n.isValidChar) :
    (Char.ofNat n).toNat = n := by
  rw [Char.ofNat, dif_pos h]
  rfl

/-- ASCII `toLower` is idempotent. -/
theorem toLower_toLower (c : Char) :
    Char.toLower (Char.toLower c) = Char.toLower c := by
  by_cases h : c.toNat ≥ 65 ∧ c.toNat ≤ 90
  · have hval : Nat.isValidChar (c.toNat + 32) := Or.inl (by omega)
    have h1 : Char.toLower c = Char.ofNat (c.toNat + 32) := by
      simp only [Char.toLower]
      rw [if_pos h]
    have h2 : (Char.toLower c).toNat = c.toNat + 32 := by
      rw [h1, toNat_ofNat_valid hval]
    conv_lhs => rw [Char.toLower]
    rw [if_neg]
    intro hcon
    omega
  · have h1 : Char.toLower c = c := by
      simp only [Char.toLower]
      rw [if_neg h]
    rw [h1]
    exact h1

/-- A whitespace character is never a word character. -/
theorem isWordChar_eq_false_of_isPySpace {c : Char} (h : isPySpace c = true) :
    isWordChar c = false := by
  simp only [isPySpace, Bool.or_eq_true, decide_eq_true_eq] at h
  rcases h with ((((rfl | rfl) | rfl) | rfl) | rfl) | rfl <;> decide

/-- A word-or-space character other than `' '` is not whitespace. -/
theorem not_pySpace_of_wordOrSpace {c : Char}
    (h : isWordChar c = true ∨ c = ' ') (hne : c ≠ ' ') :
    isPySpace c = false := by
  rcases h with hw | rfl
  · by_cases hs : isPySpace c = true
    · rw [isWordChar_eq_false_of_isPySpace hs] at hw; exact absurd hw (by simp)
    · simpa using hs
  · exact absurd rfl hne

/-- `dropWhile` is the identity when the head fails the predicate. -/
theorem dropWhile_eq_self_of_head {p : Char → Bool} {l : List Char}
    (h : ∀ c, l.head? = some c → p c = false) : l.dropWhile p = l := by
  cases l with
  | nil => rfl
  | cons a t => rw [List.dropWhile_cons, h a rfl]; simp

/-- `head?` of a `dropWhile` result fails the predicate. -/
theorem head?_dropWhile_eq_false {p : Char → Bool} {l : List Char} {c : Char}
    (h : (l.dropWhile p).head? = some c) : p c = false := by
  have := List.head?_dropWhile_not p l
  rw [h] at this
  exact this

/-- Membership in `pyStrip l` implies membership in `l`. -/
theorem mem_of_mem_pyStrip {c : Char} {l : List Char}
    (h : c ∈ pyStrip l) : c ∈ l := by
  unfold pyStrip at h
  rw [List.mem_reverse] at h
  have h1 := List.dropWhile_subset (l := (l.dropWhile isPySpace).reverse) isPySpace h
  rw [List.mem_reverse] at h1
  exact List.dropWhile_subset isPySpace h1

/-- The head of `pyStrip l` is not whitespace. -/
theorem pyStrip_head {l : List Char} {c : Char}
    (h : (pyStrip l).head? = some c) : isPySpace c = false := by
  unfold pyStrip at h
  rw [List.head?_reverse] at h
  have hne : List.dropWhile isPySpace (l.dropWhile isPySpace).reverse ≠ [] := by
    intro hcon; rw [hcon] at h; simp at h
  obtain ⟨pre, hpre⟩ :=
    List.dropWhile_suffix (l := (l.dropWhile isPySpace).reverse) isPySpace
  have hlast : ((l.dropWhile isPySpace).reverse).getLast? = some c := by
    rw [← hpre, List.getLast?_append_of_ne_nil pre hne]
    exact h
  rw [List.getLast?_reverse] at hlast
  exact head?_dropWhile_eq_false hlast

/-- The last element of `pyStrip l` is not whitespace. -/
theorem pyStrip_getLast {l : List Char} {c : Char}
    (h : (pyStrip l).getLast? = some c) : isPySpace c = false := by
  unfold pyStrip at h
  rw [List.getLast?_reverse] at h
  exact head?_dropWhile_eq_false h

/-- `pyStrip` is the identity on lists with non-space ends. -/
theorem pyStrip_eq_self {l : List Char}
    (hc : ∀ c ∈ l, isWordChar c = true ∨ c = ' ')
    (hh : l.head? ≠ some ' ') (hl : l.getLast? ≠ some ' ') :
    pyStrip l = l := by
  unfold pyStrip
  have h1 : l.dropWhile isPySpace = l := by
    apply dropWhile_eq_self_of_head
    intro c hc'
    have hmem : c ∈ l := by
      cases l with
      | nil => simp at hc'
      | cons a t =>
        simp only [List.head?_cons, Option.some.injEq] at hc'
        exact hc' ▸ List.mem_cons_self a t
    exact not_pySpace_of_wordOrSpace (hc c hmem)
      (fun hsp => hh (hsp ▸ hc'))
  rw [h1]
  have h2 : l.reverse.dropWhile isPySpace = l.reverse := by
    apply dropWhile_eq_self_of_head
    intro c hc'
    rw [List.head?_reverse] at hc'
    have hmem : c ∈ l := List.mem_of_getLast?_eq_some hc'
    exact not_pySpace_of_wordOrSpace (hc c hmem)
      (fun hsp => hl (hsp ▸ hc'))
  rw [h2, List.reverse_reverse]

/-- Characters of a collapsed list: the inserted `' '` or non-space
characters of the input. -/
theorem mem_collapseGo {c : Char} :
    ∀ {b : Bool} {l : List Char}, c ∈ collapseGo b l →
      c = ' ' ∨ (c ∈ l ∧ isPySpace c = false) := by
  intro b l
  induction l generalizing b with
  | nil => intro h; simp [collapseGo] at h
  | cons a t ih =>
    intro h
    rw [collapseGo] at h
    by_cases hs : isPySpace a
    · rw [if_pos hs] at h
      cases b with
      | true =>
        rcases ih h with h1 | ⟨h1, h2⟩
        · exact Or.inl h1
        · exact Or.inr ⟨List.mem_cons_of_mem _ h1, h2⟩
      | false =>
        rcases List.mem_cons.1 h with rfl | h'
        · exact Or.inl rfl
        · rcases ih h' with h1 | ⟨h1, h2⟩
          · exact Or.inl h1
          · exact Or.inr ⟨List.mem_cons_of_mem _ h1, h2⟩
    · rw [if_neg hs] at h
      rcases List.mem_cons.1 h with rfl | h'
      · exact Or.inr ⟨List.mem_cons_self _ _, by simpa using hs⟩
      · rcases ih h' with h1 | ⟨h1, h2⟩
        · exact Or.inl h1
        · exact Or.inr ⟨List.mem_cons_of_mem _ h1, h2⟩

/-- After a space has just been emitted, the next emitted character is
not a space. -/
theorem collapseGo_true_head {l : List Char} {c : Char}
    (h : (collapseGo true l).head? = some c) : isPySpace c = false := by
  induction l with
  | nil => simp [collapseGo] at h
  | cons a t ih =>
    rw [collapseGo] at h
    by_cases hs : isPySpace a
    · rw [if_pos hs] at h; exact ih h
    · rw [if_neg hs] at h
      simp only [List.head?_cons, Option.some.injEq] at h
      subst h; simpa using hs

/-- A collapsed list never contains two adjacent spaces. -/
theorem collapseGo_chain : ∀ (b : Bool) (l : List Char),
    (collapseGo b l).Chain' noTwoSpaces := by
  intro b l
  induction l generalizing b with
  | nil => simp [collapseGo]
  | cons a t ih =>
    rw [collapseGo]
    by_cases hs : isPySpace a
    · rw [if_pos hs]
      cases b with
      | true => rw [if_pos rfl]; exact ih true
      | false =>
        rw [if_neg (by decide), List.chain'_cons']
        refine ⟨?_, ih true⟩
        intro y hy hcon
        have hfalse : isPySpace y = false :=
          collapseGo_true_head (Option.mem_def.mp hy)
        rw [hcon.2] at hfalse
        exact absurd hfalse (by decide)
    · rw [if_neg hs]
      rw [List.chain'_cons']
      refine ⟨?_, ih false⟩
      intro y _
      intro ⟨ha, _⟩
      rw [ha] at hs
      exact hs (by decide)

/-- `collapseGo` is the identity on canonically spaced input; with the
`prevSpace` flag set it is the identity when the head is not a space. -/
theorem collapseGo_eq_self {l : List Char}
    (hc : ∀ c ∈ l, isWordChar c = true ∨ c = ' ')
    (hch : l.Chain' noTwoSpaces) :
    collapseGo false l = l ∧ (l.head? ≠ some ' ' → collapseGo true l = l) := by
  induction l with
  | nil => exact ⟨rfl, fun _ => rfl⟩
  | cons a t ih =>
    have hc' : ∀ c ∈ t, isWordChar c = true ∨ c = ' ' :=
      fun c hmem => hc c (List.mem_cons_of_mem _ hmem)
    obtain ⟨ih0, ih1⟩ := ih hc' hch.tail
    by_cases ha : a = ' '
    · subst ha
      have hhead : t.head? ≠ some ' ' := by
        intro hcon
        cases t with
        | nil => simp at hcon
        | cons b t' =>
          simp only [List.head?_cons, Option.some.injEq] at hcon
          exact (List.chain'_cons'.1 hch).1 b rfl ⟨rfl, hcon⟩
      constructor
      · rw [collapseGo, if_pos (by decide), if_neg (by decide), ih1 hhead]
      · exact fun hcon => absurd (by simp : (' ' :: t).head? = some ' ') hcon
    · have hsp : isPySpace a = false :=
        not_pySpace_of_wordOrSpace (hc a (List.mem_cons_self _ _)) ha
      constructor
      · rw [collapseGo, if_neg (by simpa using hsp), ih0]
      · intro _
        rw [collapseGo, if_neg (by simpa using hsp), ih0]

/-- `pyStrip` preserves the no-two-spaces chain. -/
theorem chain'_pyStrip {l : List Char} (h : l.Chain' noTwoSpaces) :
    (pyStrip l).Chain' noTwoSpaces := by
  have hflip : ∀ {m : List Char}, m.Chain' noTwoSpaces →
      m.reverse.Chain' noTwoSpaces := by
    intro m hm
    rw [List.chain'_reverse]
    exact hm.imp (fun a b hab => fun ⟨h1, h2⟩ => hab ⟨h2, h1⟩)
  have hdrop : ∀ {m : List Char}, m.Chain' noTwoSpaces →
      (m.dropWhile isPySpace).Chain' noTwoSpaces := by
    intro m hm
    obtain ⟨pre, hpre⟩ := List.dropWhile_suffix (l := m) isPySpace
    rw [← hpre] at hm
    exact hm.right_of_append
  exact hflip (hdrop (hflip (hdrop h)))

/-- If `firstSome` succeeds, one of the candidates succeeds. -/
theorem firstSome_eq_some {f : Nat → Option (List Char)} :
    ∀ {ks : List Nat} {r : List Char},
      firstSome f ks = some r → ∃ k ∈ ks, f k = some r := by
  intro ks
  induction ks with
  | nil => intro r h; simp [firstSome] at h
  | cons k ks ih =>
    intro r h
    rw [firstSome] at h
    cases hf : f k with
    | some r' =>
      rw [hf] at h
      exact ⟨k, List.mem_cons_self _ _, hf.trans h⟩
    | none =>
      rw [hf] at h
      obtain ⟨k', hk', hf'⟩ := ih h
      exact ⟨k', List.mem_cons_of_mem _ hk', hf'⟩

/-- A successful match returns a suffix (a `drop`) of its input. -/
theorem matchToksF_drop :
    ∀ (fuel : Nat) {ts : List Tok} {s r : List Char},
      matchToksF fuel ts s = some r → ∃ k, r = s.drop k := by
  intro fuel
  induction fuel with
  | zero => intro ts s r h; simp [matchToksF] at h
  | succ fuel ih =>
    intro ts s r h
    rw [matchToksF] at h
    match ts, s with
    | [], s =>
      rw [matchStep] at h
      exact ⟨0, (Option.some.inj h).symm⟩
    | .lit l :: ts, s =>
      rw [matchStep] at h
      by_cases hp : l.isPrefixOf s
      · rw [if_pos hp] at h
        obtain ⟨k, hk⟩ := ih h
        exact ⟨l.length + k, by rw [hk, List.drop_drop]⟩
      · rw [if_neg hp] at h; exact absurd h (by simp)
    | .many1 p :: ts, s =>
      rw [matchStep] at h
      obtain ⟨k, _, hf⟩ := firstSome_eq_some h
      obtain ⟨k', hk'⟩ := ih hf
      exact ⟨k + k', by rw [hk', List.drop_drop]⟩
    | .many0 p :: ts, s =>
      rw [matchStep] at h
      obtain ⟨k, _, hf⟩ := firstSome_eq_some h
      obtain ⟨k', hk'⟩ := ih hf
      exact ⟨k + k', by rw [hk', List.drop_drop]⟩
    | .opt p :: ts, [] =>
      rw [matchStep] at h
      obtain ⟨k, hk⟩ := ih h
      exact ⟨k, by simpa using hk⟩
    | .opt p :: ts, c :: rest =>
      rw [matchStep] at h
      by_cases hp : p c
      · rw [if_pos hp] at h
        cases hrec : matchToksF fuel ts rest with
        | some r' =>
          simp only [hrec] at h
          obtain ⟨k, hk⟩ := ih hrec
          have hrr : r' = r := Option.some.inj h
          exact ⟨k + 1, by rw [List.drop_succ_cons, ← hrr]; exact hk⟩
        | none =>
          simp only [hrec] at h
          exact ih h
      · rw [if_neg hp] at h
        exact ih h

/-- `stripGarbage` returns a suffix of its input. -/
theorem stripGarbage_drop (s : List Char) :
    ∃ k, stripGarbage s = s.drop k := by
  unfold stripGarbage
  cases h1 : matchToks garbagePat1 s with
  | some r => exact matchToksF_drop _ h1
  | none =>
    cases h2 : matchToks garbagePat2 s with
    | some r => exact matchToksF_drop _ h2
    | none =>
      cases h3 : matchToks garbagePat3 s with
      | some r => exact matchToksF_drop _ h3
      | none => exact ⟨0, rfl⟩

/-- The cleanup pipeline (trim/lower, punctuation removal, whitespace
collapse, trim) always produces a canonical-shape list. -/
theorem goodName_cleanup (x : List Char) :
    GoodName (pyStrip (collapseSpaces (removePunct (pyLower x)))) := by
  refine ⟨?_, ?_, ?_, ?_, ?_⟩
  · intro c hc
    have h1 := mem_of_mem_pyStrip hc
    rcases mem_collapseGo h1 with rfl | ⟨h2, h3⟩
    · exact Or.inr rfl
    · have h4 := (List.mem_filter.1 h2).2
      simp only [Bool.or_eq_true] at h4
      rcases h4 with hw | hs
      · exact Or.inl hw
      · rw [hs] at h3; exact absurd h3 (by simp)
  · intro c hc
    have h1 := mem_of_mem_pyStrip hc
    rcases mem_collapseGo h1 with rfl | ⟨h2, _⟩
    · decide
    · have h4 := (List.mem_filter.1 h2).1
      obtain ⟨c', _, rfl⟩ := List.mem_map.1 h4
      exact toLower_toLower c'
  · exact chain'_pyStrip (collapseGo_chain false _)
  · intro hcon
    have := pyStrip_head hcon
    exact absurd this (by decide)
  · intro hcon
    have := pyStrip_getLast hcon
    exact absurd this (by decide)

/-- Canonical shape survives dropping a prefix and re-trimming. -/
theorem goodName_pyStrip_drop {l : List Char} (h : GoodName l) (k : Nat) :
    GoodName (pyStrip (l.drop k)) := by
  obtain ⟨hchars, hlower, hchain, _, _⟩ := h
  refine ⟨?_, ?_, ?_, ?_, ?_⟩
  · exact fun c hc =>
      hchars c (List.mem_of_mem_drop (mem_of_mem_pyStrip hc))
  · exact fun c hc =>
      hlower c (List.mem_of_mem_drop (mem_of_mem_pyStrip hc))
  · exact chain'_pyStrip (hchain.drop k)
  · intro hcon
    exact absurd (pyStrip_head hcon) (by decide)
  · intro hcon
    exact absurd (pyStrip_getLast hcon) (by decide)

/-- The plural fold either leaves its argument unchanged or returns one
of the table's singular values. -/
theorem foldl_plural_cases (tbl : List (String × String)) :
    ∀ x : List Char,
      tbl.foldl (fun acc pr => if acc = pr.1.data then pr.2.data else acc) x = x ∨
      ∃ pr ∈ tbl,
        tbl.foldl (fun acc pr => if acc = pr.1.data then pr.2.data else acc) x
          = pr.2.data := by
  induction tbl with
  | nil => intro x; exact Or.inl rfl
  | cons pr rest ih =>
    intro x
    rw [List.foldl_cons]
    by_cases hx : x = pr.1.data
    · rw [if_pos hx]
      rcases ih pr.2.data with h | ⟨pr', h', heq⟩
      · exact Or.inr ⟨pr, List.mem_cons_self _ _, h⟩
      · exact Or.inr ⟨pr', List.mem_cons_of_mem _ h', heq⟩
    · rw [if_neg hx]
      rcases ih x with h | ⟨pr', h', heq⟩
      · exact Or.inl h
      · exact Or.inr ⟨pr', List.mem_cons_of_mem _ h', heq⟩

theorem applyPlurals_cases (l : List Char) :
    applyPlurals l = l ∨
    ∃ pr ∈ pluralReplacements, applyPlurals l = pr.2.data :=
  foldl_plural_cases pluralReplacements l

/-- The singular values of the table are untouched by the plural fold. -/
theorem applyPlurals_value_fixed :
    ∀ pr ∈ pluralReplacements, applyPlurals pr.2.data = pr.2.data := by
  decide

theorem applyPlurals_idem (l : List Char) :
    applyPlurals (applyPlurals l) = applyPlurals l := by
  rcases applyPlurals_cases l with h | ⟨pr, hpr, heq⟩
  · rw [h]; exact h
  · rw [heq]; exact applyPlurals_value_fixed pr hpr

/-- Executable check that no two adjacent characters are both spaces. -/
def noDoubleSpace : List Char → Bool
  | a :: b :: rest => (!(a = ' ' && b = ' ')) && noDoubleSpace (b :: rest)
  | _ => true

theorem noDoubleSpace_iff : ∀ {l : List Char},
    noDoubleSpace l = true ↔ l.Chain' noTwoSpaces := by
  intro l
  induction l with
  | nil => simp [noDoubleSpace]
  | cons a t ih =>
    cases t with
    | nil => simp [noDoubleSpace, List.chain'_singleton]
    | cons b t' =>
      rw [noDoubleSpace, Bool.and_eq_true, List.chain'_cons, ih]
      constructor
      · rintro ⟨h1, h2⟩
        refine ⟨?_, h2⟩
        intro ⟨ha, hb⟩
        rw [ha, hb] at h1
        simp at h1
      · rintro ⟨h1, h2⟩
        refine ⟨?_, h2⟩
        by_cases ha : a = ' '
        · by_cases hb : b = ' '
          · exact absurd ⟨ha, hb⟩ h1
          · simp [hb]
        · simp [ha]

instance (l : List Char) : Decidable (GoodName l) :=
  decidable_of_iff ((∀ c ∈ l, isWordChar c = true ∨ c = ' ') ∧
    (∀ c ∈ l, Char.toLower c = c) ∧ noDoubleSpace l = true ∧
    l.head? ≠ some ' ' ∧ l.getLast? ≠ some ' ')
    (by unfold GoodName
        exact and_congr Iff.rfl (and_congr Iff.rfl
          (and_congr noDoubleSpace_iff Iff.rfl)))

/-- The singular values of the table are canonical. -/
theorem goodName_value : ∀ pr ∈ pluralReplacements, GoodName pr.2.data := by
  decide

theorem goodName_applyPlurals {l : List Char} (h : GoodName l) :
    GoodName (applyPlurals l) := by
  rcases applyPlurals_cases l with heq | ⟨pr, hpr, heq⟩
  · rw [heq]; exact h
  · rw [heq]; exact goodName_value pr hpr

theorem pyLower_eq_self {l : List Char}
    (h : ∀ c ∈ l, Char.toLower c = c) : pyLower l = l :=
  (List.map_congr_left h).trans (List.map_id l)

theorem removePunct_eq_self {l : List Char}
    (h : ∀ c ∈ l, isWordChar c = true ∨ c = ' ') : removePunct l = l := by
  apply List.filter_eq_self.mpr
  intro c hc
  rcases h c hc with hw | rfl
  · simp [hw]
  · decide

theorem collapseSpaces_eq_self {l : List Char}
    (hc : ∀ c ∈ l, isWordChar c = true ∨ c = ' ')
    (hch : l.Chain' noTwoSpaces) : collapseSpaces l = l :=
  (collapseGo_eq_self hc hch).1

/-- Inverting a successful run of the normalizer. -/
theorem normalize_some_inv {s y : String}
    (h : normalizeIngredientName (some s) = some y) :
    y = String.mk (processedName s) ∧ 2 ≤ (processedName s).length ∧
    processedName s ∉ nameStoplist := by
  rw [normalizeIngredientName] at h
  by_cases h1 : s.data = [] ∨ pyStrip s.data = []
  · rw [if_pos h1] at h; exact absurd h (by simp)
  · rw [if_neg h1] at h
    by_cases h2 : (processedName s).length < 2
    · rw [if_pos h2] at h; exact absurd h (by simp)
    · rw [if_neg h2] at h
      by_cases h3 : processedName s ∈ nameStoplist
      · rw [if_pos h3] at h; exact absurd h (by simp)
      · rw [if_neg h3] at h
        exact ⟨(Option.some.inj h).symm, Nat.not_lt.mp h2, h3⟩

/-- C5 counterexample: the normalizer is *not* idempotent.  The anchored
garbage-prefix regex strips one quantity layer per call, so
`"1 cup 2 large onions"` normalizes to `"2 large onions"`, which a
second application reduces further to `"onion"`. -/
theorem c5_counterexample :
    normalizeIngredientName (some "1 cup 2 large onions") = some "2 large onions" ∧
    normalizeIngredientName
        (normalizeIngredientName (some "1 cup 2 large onions")) ≠
      normalizeIngredientName (some "1 cup 2 large onions") := by
  decide

/-- C5 (amended): the normalizer is a fixed point on every accepted
result that does not itself still begin with a garbage prefix: if
`normalize_ingredient_name x = some y` and the prefix regex does not
strip anything from `y`, then `normalize_ingredient_name y = some y`.
(The unamended claim fails only because the anchored regex removes a
single prefix layer per call; all other stages are idempotent.) -/
theorem c5_fixed_point_amended (x y : String)
    (hy : normalizeIngredientName (some x) = some y)
    (hng : stripGarbage y.data = y.data) :
    normalizeIngredientName (some y) = some y := by
  obtain ⟨hy_eq, hlen, hstop⟩ := normalize_some_inv hy
  have hgood : GoodName (processedName x) := by
    have g3 : GoodName
        (pyStrip (collapseSpaces (removePunct (pyLower (pyStrip x.data))))) :=
      goodName_cleanup _
    obtain ⟨k, hk⟩ := stripGarbage_drop
      (pyStrip (collapseSpaces (removePunct (pyLower (pyStrip x.data)))))
    rw [processedName, hk]
    exact goodName_applyPlurals (goodName_pyStrip_drop g3 k)
  have hplur0 : applyPlurals (processedName x) = processedName x :=
    applyPlurals_idem _
  have hy_data : y.data = processedName x := by rw [hy_eq]
  generalize hd : processedName x = d at hgood hlen hstop hplur0 hy_data
  obtain ⟨hchars, hlower, hchain, hhead, hlast⟩ := hgood
  have hstrip1 : pyStrip d = d := pyStrip_eq_self hchars hhead hlast
  have hlow : pyLower d = d := pyLower_eq_self hlower
  have hpunct : removePunct d = d := removePunct_eq_self hchars
  have hcol : collapseSpaces d = d := collapseSpaces_eq_self hchars hchain
  have hng' : stripGarbage d = d := by rw [← hy_data]; exact hng
  have hne : d ≠ [] := by
    intro hcon
    rw [hcon] at hlen
    simp at hlen
  have hproc : processedName y = d := by
    calc processedName y
        = applyPlurals (pyStrip (stripGarbage
            (pyStrip (collapseSpaces (removePunct (pyLower (pyStrip y.data))))))) := rfl
      _ = applyPlurals (pyStrip (stripGarbage
            (pyStrip (collapseSpaces (removePunct (pyLower (pyStrip d))))))) := by
          rw [hy_data]
      _ = applyPlurals (pyStrip (stripGarbage
            (pyStrip (collapseSpaces (removePunct (pyLower d)))))) := by rw [hstrip1]
      _ = applyPlurals (pyStrip (stripGarbage
            (pyStrip (collapseSpaces (removePunct d))))) := by rw [hlow]
      _ = applyPlurals (pyStrip (stripGarbage
            (pyStrip (collapseSpaces d)))) := by rw [hpunct]
      _ = applyPlurals (pyStrip (stripGarbage (pyStrip d))) := by rw [hcol]
      _ = applyPlurals (pyStrip (stripGarbage d)) := by rw [hstrip1]
      _ = applyPlurals (pyStrip d) := by rw [hng']
      _ = applyPlurals d := by rw [hstrip1]
      _ = d := hplur0
  rw [normalizeIngredientName]
  rw [if_neg (by
    rw [hy_data, hstrip1]
    exact fun hcon => hne (hcon.elim id id))]
  have hlen' : ¬ (processedName y).length < 2 := by rw [hproc]; omega
  have hstop' : processedName y ∉ nameStoplist := by rw [hproc]; exact hstop
  rw [if_neg hlen', if_neg hstop', hproc, ← hy_data]

/-- Witness for C5 (amended) at `x = "Eggs"`, `y = "egg"`. -/
theorem c5_fixed_point_witness :
    normalizeIngredientName (some "Eggs") = some "egg" ∧
    stripGarbage ("egg".data) = "egg".data ∧
    normalizeIngredientName (some "egg") = some "egg" :=
  ⟨by decide, by decide, c5_fixed_point_amended "Eggs" "egg" (by decide) (by decide)⟩

/-! ## QualityChecker (`src/quality/data_quality.py`)

The checker's DataFrame rows are the `NRow`s of the pipeline's frames
(all eight columns always present, matching `flatten`'s output and the
parquet files it writes).  Python floats are modelled as `ℚ`; the
human-readable `message` field of `QualityCheckResult` is diagnostic
text only and is omitted. -/

structure QualityCheckResult where
  check_name : String
  passed : Bool
  metric_value : Option ℚ
  threshold : Option ℚ
  deriving DecidableEq, Repr

/-- `check_record_count(df, min_count=1)` (no maximum at the call site). -/
def checkRecordCount (df : List NRow) : QualityCheckResult :=
  { check_name := "record_count"
    passed := decide (¬ df.length < 1)
    metric_value := some (df.length : ℚ)
    threshold := none }

/-- `check_not_null(df, column, threshold)`, abstracted over the column's
total and non-null row counts.  Returns the result together with what is
appended to `self.results`: on an empty frame the method returns early
*without* appending. -/
def checkNotNullPair (column : String) (threshold : ℚ) (total nonNull : Nat) :
    QualityCheckResult × List QualityCheckResult :=
  if total = 0 then
    ({ check_name := "not_null_" ++ column, passed := false,
       metric_value := some 0, threshold := some threshold }, [])
  else
    let r : QualityCheckResult :=
      { check_name := "not_null_" ++ column
        passed := decide (threshold ≤ (nonNull : ℚ) / (total : ℚ))
        metric_value := some ((nonNull : ℚ) / (total : ℚ))
        threshold := some threshold }
    (r, [r])

/-- The `(source_name, source_id)` pairs of the frame (neither column is
ever null in a pipeline frame, so pandas `dropna` keeps every row). -/
def sourceCombos (df : List NRow) : List (JVal × String) :=
  df.map (fun r => (r.source_name, r.source_id))

/-- The `unique_source_combo` rule: number of duplicate pairs is 0. -/
def uniqueSourceComboCheck (df : List NRow) : QualityCheckResult :=
  { check_name := "unique_source_combo"
    passed := decide ((sourceCombos df).length - (sourceCombos df).dedup.length = 0)
    metric_value :=
      some (((sourceCombos df).length - (sourceCombos df).dedup.length : Nat) : ℚ)
    threshold := none }

/-- A recipe row counted by `recipes_with_ingredients`: a non-empty
ingredient list in which some entry has a truthy (non-empty) name. -/
def rowHasValidIngredients (r : NRow) : Bool :=
  !r.ingredients.isEmpty && r.ingredients.any (fun i => i.ingredient ≠ "")

/-- `recipes_with_ingredients / total_recipes if total_recipes > 0 else 0`. -/
def ingredientCoverage (df : List NRow) : ℚ :=
  if 0 < df.length then
    (df.countP rowHasValidIngredients : ℚ) / (df.length : ℚ)
  else 0

/-- The `recipes_with_ingredients` rule (threshold 0.8). -/
def recipesWithIngredientsCheck (df : List NRow) : QualityCheckResult :=
  { check_name := "recipes_with_ingredients"
    passed := decide ((4 : ℚ) / 5 ≤ ingredientCoverage df)
    metric_value := some (ingredientCoverage df)
    threshold := some ((4 : ℚ) / 5) }

/-- `check_recipe_data_quality`: first component is the checker's new
accumulated `self.results` list, second the returned per-rule results
(the `results` dict, in insertion order). -/
def checkRecipeDataQuality (df : List NRow) (acc : List QualityCheckResult) :
    List QualityCheckResult × List QualityCheckResult :=
  let total := df.length
  let rc := checkRecordCount df
  let snPair := checkNotNullPair "source_name" 1 total total
  let siPair := checkNotNullPair "source_id" 1 total total
  let nmPair := checkNotNullPair "name" 1 total
    (df.countP (fun r => r.name.isSome))
  let comboPart : List QualityCheckResult :=
    if 0 < df.length then [uniqueSourceComboCheck df] else []
  let rwi := recipesWithIngredientsCheck df
  let catPair := checkNotNullPair "category" (1 / 2) total
    (df.countP (fun r => r.category.isSome))
  (acc ++ [rc] ++ snPair.2 ++ siPair.2 ++ nmPair.2 ++ comboPart ++ [rwi]
     ++ catPair.2,
   [rc, snPair.1, siPair.1, nmPair.1] ++ comboPart ++ [rwi, catPair.1])

def getFailedChecks (results : List QualityCheckResult) :
    List QualityCheckResult :=
  results.filter (fun r => !r.passed)

/-- `assert_all_passed(raise_on_failure)`: `Except.error` carries the
failed checks the raised `ValueError` lists; `Except.ok` is the boolean
return value. -/
def assertAllPassed (raiseOnFailure : Bool)
    (results : List QualityCheckResult) :
    Except (List QualityCheckResult) Bool :=
  let failed := getFailedChecks results
  if failed ≠ [] ∧ raiseOnFailure = true then Except.error failed
  else Except.ok (decide (failed.length = 0))

/-! ## Claim C7: the `recipes_with_ingredients` rule -/

/-- C7: the rule passes exactly when the fraction of recipes having at
least one ingredient entry with a non-empty name is at least `0.8`, and
on a batch of 10 recipes of which exactly 7 qualify the metric is `0.7`
and the rule fails. -/
theorem c7_recipes_with_ingredients (df : List NRow) :
    ((recipesWithIngredientsCheck df).passed = true ↔
      (4 : ℚ) / 5 ≤ ingredientCoverage df) ∧
    (df.length = 10 → df.countP rowHasValidIngredients = 7 →
      (recipesWithIngredientsCheck df).metric_value = some ((7 : ℚ) / 10) ∧
      (recipesWithIngredientsCheck df).passed = false) := by
  constructor
  · simp [recipesWithIngredientsCheck]
  · intro h10 h7
    have hcov : ingredientCoverage df = (7 : ℚ) / 10 := by
      rw [ingredientCoverage, if_pos (by rw [h10]; norm_num), h10, h7]
      norm_num
    constructor
    · rw [recipesWithIngredientsCheck]
      simp only [hcov]
    · rw [recipesWithIngredientsCheck]
      simp only [hcov, decide_eq_false_iff_not]
      norm_num

/-- Seven rows with a valid ingredient and three without. -/
def c7Batch : List NRow :=
  List.replicate 7
    ({ source_name := .s "themealdb", source_id := "1", name := none,
       category := none, area := none, instructions := none,
       thumbnail := none, ingredients := [⟨"egg", none⟩] } : NRow) ++
  List.replicate 3
    ({ source_name := .s "themealdb", source_id := "2", name := none,
       category := none, area := none, instructions := none,
       thumbnail := none, ingredients := [] } : NRow)

/-- Witness for C7 on the concrete 10-recipe batch. -/
theorem c7_recipes_with_ingredients_witness :
    c7Batch.length = 10 ∧ c7Batch.countP rowHasValidIngredients = 7 ∧
    (((recipesWithIngredientsCheck c7Batch).passed = true ↔
        (4 : ℚ) / 5 ≤ ingredientCoverage c7Batch) ∧
      (c7Batch.length = 10 → c7Batch.countP rowHasValidIngredients = 7 →
        (recipesWithIngredientsCheck c7Batch).metric_value = some ((7 : ℚ) / 10) ∧
        (recipesWithIngredientsCheck c7Batch).passed = false)) :=
  ⟨by decide, by decide, c7_recipes_with_ingredients c7Batch⟩

/-! ## Claim C8: accumulation and strict mode -/

/-- Behaviour of `assert_all_passed`: with `raise_on_failure=True` it
raises (an error listing every failed rule) exactly when some result
failed; with `raise_on_failure=False` it never raises. -/
theorem assertAllPassed_spec (st : List QualityCheckResult) :
    ((∃ r ∈ st, r.passed = false) ↔
      assertAllPassed true st = Except.error (getFailedChecks st)) ∧
    (∀ b, assertAllPassed false st ≠ Except.error b) := by
  constructor
  · by_cases hf : getFailedChecks st = []
    · constructor
      · intro ⟨r, hr, hp⟩
        have : r ∈ getFailedChecks st := by
          rw [getFailedChecks, List.mem_filter]
          exact ⟨hr, by rw [hp]; rfl⟩
        rw [hf] at this
        simp at this
      · intro hcon
        rw [assertAllPassed] at hcon
        rw [if_neg (by rw [hf]; simp)] at hcon
        exact absurd hcon (by simp)
    · constructor
      · intro _
        rw [assertAllPassed, if_pos ⟨hf, rfl⟩]
      · intro _
        match hmem : getFailedChecks st with
        | [] => exact absurd hmem hf
        | r :: rest =>
          have hr : r ∈ getFailedChecks st := by rw [hmem]; simp
          rw [getFailedChecks, List.mem_filter] at hr
          exact ⟨r, hr.1, by simpa using hr.2⟩
  · intro b
    rw [assertAllPassed, if_neg (by simp)]
    simp

/-- C8 counterexample: on the *empty* batch the claim fails — the
`not_null` rules (and the category rule) are evaluated and their failed
results are returned in the rule dictionary, but `check_not_null`'s
empty-frame early return skips `self.results.append`, so only
`record_count` and `recipes_with_ingredients` are accumulated. -/
theorem c8_counterexample :
    ((checkRecipeDataQuality [] []).2.map (fun r => r.check_name)) =
      ["record_count", "not_null_source_name", "not_null_source_id",
       "not_null_name", "recipes_with_ingredients", "not_null_category"] ∧
    ((checkRecipeDataQuality [] []).1.map (fun r => r.check_name)) =
      ["record_count", "recipes_with_ingredients"] := by
  decide

/-- C8 (amended): for every *non-empty* batch the checker evaluates all
applicable rules and appends each result to the accumulated list (in
evaluation order, never short-circuiting), and a subsequent
`assert_all_passed` raises an error listing every failed rule exactly
when some accumulated result failed (never raising when
`raise_on_failure=False`).  On an empty batch the `not_null` and
category results are returned but not accumulated. -/
theorem c8_quality_accumulation_amended (df : List NRow)
    (acc : List QualityCheckResult) (hne : df ≠ []) :
    (checkRecipeDataQuality df acc).1 =
      acc ++ (checkRecipeDataQuality df acc).2 ∧
    ((checkRecipeDataQuality df acc).2.map (fun r => r.check_name)) =
      ["record_count", "not_null_source_name", "not_null_source_id",
       "not_null_name", "unique_source_combo", "recipes_with_ingredients",
       "not_null_category"] ∧
    ((∃ r ∈ (checkRecipeDataQuality df acc).1, r.passed = false) ↔
      assertAllPassed true (checkRecipeDataQuality df acc).1 =
        Except.error (getFailedChecks (checkRecipeDataQuality df acc).1)) ∧
    (∀ b, assertAllPassed false (checkRecipeDataQuality df acc).1 ≠
      Except.error b) := by
  have hlen : df.length ≠ 0 := fun hcon => hne (List.length_eq_zero.mp hcon)
  have hpos : 0 < df.length := Nat.pos_of_ne_zero hlen
  refine ⟨?_, ?_, (assertAllPassed_spec _).1, (assertAllPassed_spec _).2⟩
  · rw [checkRecipeDataQuality]
    simp only [checkNotNullPair, if_neg hlen, if_pos hpos]
    simp [List.append_assoc]
  · rw [checkRecipeDataQuality]
    simp only [checkNotNullPair, if_neg hlen, if_pos hpos]
    rfl

/-- A one-recipe batch for the C8 witness. -/
def c8Batch : List NRow :=
  [{ source_name := .s "themealdb", source_id := "1",
     name := some (.s "Cake"), category := some (.s "Dessert"),
     area := none, instructions := none, thumbnail := none,
     ingredients := [⟨"egg", some (.s "2")⟩] }]

/-- Witness for C8 (amended) on a concrete non-empty batch. -/
theorem c8_quality_accumulation_witness :
    (checkRecipeDataQuality c8Batch []).1 =
      [] ++ (checkRecipeDataQuality c8Batch []).2 ∧
    ((checkRecipeDataQuality c8Batch []).2.map (fun r => r.check_name)) =
      ["record_count", "not_null_source_name", "not_null_source_id",
       "not_null_name", "unique_source_combo", "recipes_with_ingredients",
       "not_null_category"] ∧
    ((∃ r ∈ (checkRecipeDataQuality c8Batch []).1, r.passed = false) ↔
      assertAllPassed true (checkRecipeDataQuality c8Batch []).1 =
        Except.error (getFailedChecks (checkRecipeDataQuality c8Batch []).1)) ∧
    (∀ b, assertAllPassed false (checkRecipeDataQuality c8Batch []).1 ≠
      Except.error b) :=
  c8_quality_accumulation_amended c8Batch [] (by decide)

/-! ## Generic `INSERT ... ON DUPLICATE KEY UPDATE` semantics

All three upsert statements of `load_parquet_to_db` share one shape: a
table with a unique key and an auto-increment id counter receives the
staged rows one at a time; a row whose key is present has its non-key
columns overwritten, otherwise a fresh row is appended. -/

section GenUpsert

variable {Row K S : Type} [DecidableEq K]
variable (keyOf : Row → K) (stagedKey : S → K)
variable (updateRow : Row → S → Row) (mkRow : Nat → S → Row)

/-- Process one staged row against `(table, next-id counter)`. -/
def gUpsert (tc : List Row × Nat) (s : S) : List Row × Nat :=
  if tc.1.any (fun r => keyOf r = stagedKey s) then
    (tc.1.map (fun r => if keyOf r = stagedKey s then updateRow r s else r),
     tc.2)
  else
    (tc.1 ++ [mkRow tc.2 s], tc.2 + 1)

/-- Process the statement's staged rows in order. -/
def gFold (ss : List S) (tc : List Row × Nat) : List Row × Nat :=
  ss.foldl (gUpsert keyOf stagedKey updateRow mkRow) tc

/-- First row carrying key `k`. -/
def lookupK (k : K) (t : List Row) : Option Row :=
  t.find? (fun r => keyOf r = k)

/-- The effect of the k-relevant updates of a staged list on one row. -/
def applyLast (k : K) (ss : List S) (r : Row) : Row :=
  ss.foldl (fun acc s => if stagedKey s = k then updateRow acc s else acc) r

end GenUpsert

section GenUpsertLemmas

variable {Row K S : Type} [DecidableEq K]
variable {keyOf : Row → K} {stagedKey : S → K}
variable {updateRow : Row → S → Row} {mkRow : Nat → S → Row}

/-- `find?` commutes with a map that preserves the predicate. -/
theorem find?_map_pred {g : Row → Row} {p : Row → Bool}
    (hg : ∀ r, p (g r) = p r) :
    ∀ t : List Row, (t.map g).find? p = (t.find? p).map g := by
  intro t
  induction t with
  | nil => rfl
  | cons a t ih =>
    rw [List.map_cons]
    by_cases hp : p a
    · rw [List.find?_cons_of_pos _ (by rw [hg]; exact hp),
        List.find?_cons_of_pos _ hp]
      rfl
    · rw [List.find?_cons_of_neg _ (by rw [hg]; exact hp),
        List.find?_cons_of_neg _ hp, ih]

/-- `any` detects exactly the keys of the table. -/
theorem hasK_iff_mem_keys {t : List Row} {k : K} :
    t.any (fun r => keyOf r = k) = true ↔ k ∈ t.map keyOf := by
  rw [List.any_eq_true]
  constructor
  · intro ⟨r, hr, hk⟩
    exact List.mem_map.2 ⟨r, hr, by simpa using hk⟩
  · intro h
    obtain ⟨r, hr, hk⟩ := List.mem_map.1 h
    exact ⟨r, hr, by simpa using hk⟩

/-- Looking up the staged key after one upsert. -/
theorem lookupK_gUpsert_self
    (hk1 : ∀ r s, keyOf (updateRow r s) = keyOf r)
    (hk2 : ∀ c s, keyOf (mkRow c s) = stagedKey s)
    (tc : List Row × Nat) (s : S) :
    lookupK keyOf (stagedKey s) (gUpsert keyOf stagedKey updateRow mkRow tc s).1 =
      some (match lookupK keyOf (stagedKey s) tc.1 with
            | some r => updateRow r s
            | none => mkRow tc.2 s) := by
  rw [gUpsert]
  by_cases hmem : tc.1.any (fun r => keyOf r = stagedKey s)
  · rw [if_pos hmem]
    rw [lookupK, find?_map_pred (fun r => by
      by_cases hr : keyOf r = stagedKey s
      · simp [hr, hk1]
      · simp [hr])]
    cases hfind : lookupK keyOf (stagedKey s) tc.1 with
    | none =>
      rw [lookupK] at hfind
      rw [List.any_eq_true] at hmem
      obtain ⟨r, hr, hkr⟩ := hmem
      rw [List.find?_eq_none] at hfind
      exact absurd hkr (by simpa using hfind r hr)
    | some r =>
      rw [lookupK] at hfind
      rw [hfind]
      have hkey : keyOf r = stagedKey s := by
        simpa using List.find?_some hfind
      simp [Option.map, hkey]
  · rw [if_neg hmem]
    cases hfind : lookupK keyOf (stagedKey s) tc.1 with
    | none =>
      rw [lookupK, List.find?_append]
      rw [lookupK] at hfind
      rw [hfind]
      simp [hk2]
    | some r =>
      rw [lookupK] at hfind
      have := List.find?_some hfind
      have hmem' : tc.1.any (fun r => keyOf r = stagedKey s) = true :=
        List.any_eq_true.2 ⟨r, List.mem_of_find?_eq_some hfind, this⟩
      exact absurd hmem' hmem

/-- Looking up a different key after one upsert. -/
theorem lookupK_gUpsert_ne
    (hk1 : ∀ r s, keyOf (updateRow r s) = keyOf r)
    (hk2 : ∀ c s, keyOf (mkRow c s) = stagedKey s)
    {k : K} {s : S} (hne : k ≠ stagedKey s) (tc : List Row × Nat) :
    lookupK keyOf k (gUpsert keyOf stagedKey updateRow mkRow tc s).1 =
      lookupK keyOf k tc.1 := by
  rw [gUpsert]
  by_cases hmem : tc.1.any (fun r => keyOf r = stagedKey s)
  · rw [if_pos hmem]
    rw [lookupK, find?_map_pred (fun r => by
      by_cases hr : keyOf r = stagedKey s
      · simp [hr, hk1]
      · simp [hr])]
    cases hfind : lookupK keyOf k tc.1 with
    | none => rw [lookupK] at hfind; rw [hfind]; rfl
    | some r =>
      rw [lookupK] at hfind
      rw [hfind]
      have hkey : keyOf r = k := by simpa using List.find?_some hfind
      have hfix : (if keyOf r = stagedKey s then updateRow r s else r) = r :=
        if_neg (fun hcon => hne (hkey ▸ hcon))
      simp [Option.map, hfix]
  · rw [if_neg hmem]
    rw [lookupK, List.find?_append, lookupK]
    have : List.find? (fun r => decide (keyOf r = k)) [mkRow tc.2 s] = none := by
      rw [List.find?_eq_none]
      intro x hx
      rw [List.mem_singleton] at hx
      subst hx
      simp [hk2]
      exact fun hcon => hne hcon.symm
    rw [this]
    cases List.find? (fun r => decide (keyOf r = k)) tc.1 <;> rfl

/-- The staged key is present after an upsert, and presence persists. -/
theorem hasK_gUpsert
    (hk1 : ∀ r s, keyOf (updateRow r s) = keyOf r)
    (hk2 : ∀ c s, keyOf (mkRow c s) = stagedKey s)
    (tc : List Row × Nat) (s : S) {k : K}
    (h : k ∈ tc.1.map keyOf ∨ k = stagedKey s) :
    k ∈ (gUpsert keyOf stagedKey updateRow mkRow tc s).1.map keyOf := by
  rw [gUpsert]
  by_cases hmem : tc.1.any (fun r => keyOf r = stagedKey s)
  · rw [if_pos hmem]
    have hkeys : (tc.1.map (fun r =>
        if keyOf r = stagedKey s then updateRow r s else r)).map keyOf =
        tc.1.map keyOf := by
      rw [List.map_map]
      apply List.map_congr_left
      intro r _
      by_cases hr : keyOf r = stagedKey s
      · simp [hr, hk1]
      · simp [hr]
    rw [hkeys]
    rcases h with h | rfl
    · exact h
    · exact hasK_iff_mem_keys.1 hmem
  · rw [if_neg hmem, List.map_append]
    rcases h with h | rfl
    · exact List.mem_append_left _ h
    · exact List.mem_append_right _ (by simp [hk2])

/-- Presence of keys after a fold. -/
theorem hasK_gFold
    (hk1 : ∀ r s, keyOf (updateRow r s) = keyOf r)
    (hk2 : ∀ c s, keyOf (mkRow c s) = stagedKey s) :
    ∀ (ss : List S) (tc : List Row × Nat) {k : K},
      (k ∈ tc.1.map keyOf ∨ ∃ s ∈ ss, stagedKey s = k) →
      k ∈ (gFold keyOf stagedKey updateRow mkRow ss tc).1.map keyOf := by
  intro ss
  induction ss with
  | nil =>
    intro tc k h
    rcases h with h | ⟨s, hs, _⟩
    · exact h
    · simp at hs
  | cons s ss ih =>
    intro tc k h
    rw [gFold, List.foldl_cons]
    apply ih
    rcases h with h | ⟨s', hs', hk⟩
    · exact Or.inl (hasK_gUpsert hk1 hk2 tc s (Or.inl h))
    · rcases List.mem_cons.1 hs' with rfl | hs'
      · exact Or.inl (hasK_gUpsert hk1 hk2 tc s' (Or.inr hk.symm))
      · exact Or.inr ⟨s', hs', hk⟩

/-- A key not staged later keeps its lookup through a fold. -/
theorem lookupK_gFold_ne
    (hk1 : ∀ r s, keyOf (updateRow r s) = keyOf r)
    (hk2 : ∀ c s, keyOf (mkRow c s) = stagedKey s) :
    ∀ (ss : List S) (tc : List Row × Nat) {k : K},
      (∀ s ∈ ss, stagedKey s ≠ k) →
      lookupK keyOf k (gFold keyOf stagedKey updateRow mkRow ss tc).1 =
        lookupK keyOf k tc.1 := by
  intro ss
  induction ss with
  | nil => intro tc k _; rfl
  | cons s ss ih =>
    intro tc k h
    rw [gFold, List.foldl_cons]
    rw [show List.foldl (gUpsert keyOf stagedKey updateRow mkRow)
        (gUpsert keyOf stagedKey updateRow mkRow tc s) ss =
        gFold keyOf stagedKey updateRow mkRow ss
          (gUpsert keyOf stagedKey updateRow mkRow tc s) from rfl]
    rw [ih _ (fun s' hs' => h s' (List.mem_cons_of_mem _ hs'))]
    exact lookupK_gUpsert_ne hk1 hk2
      (fun hcon => h s (List.mem_cons_self _ _) hcon.symm) tc

/-- Lookup of a present key through a fold: the k-relevant updates are
applied in order to the row value. -/
theorem lookupK_gFold_present
    (hk1 : ∀ r s, keyOf (updateRow r s) = keyOf r)
    (hk2 : ∀ c s, keyOf (mkRow c s) = stagedKey s) :
    ∀ (ss : List S) (tc : List Row × Nat) {k : K} {r : Row},
      lookupK keyOf k tc.1 = some r →
      lookupK keyOf k (gFold keyOf stagedKey updateRow mkRow ss tc).1 =
        some (applyLast stagedKey updateRow k ss r) := by
  intro ss
  induction ss with
  | nil => intro tc k r h; exact h
  | cons s ss ih =>
    intro tc k r h
    rw [gFold, List.foldl_cons,
      show List.foldl (gUpsert keyOf stagedKey updateRow mkRow)
        (gUpsert keyOf stagedKey updateRow mkRow tc s) ss =
        gFold keyOf stagedKey updateRow mkRow ss
          (gUpsert keyOf stagedKey updateRow mkRow tc s) from rfl]
    by_cases hk : stagedKey s = k
    · have hup := lookupK_gUpsert_self hk1 hk2 tc s
      rw [hk, h] at hup
      rw [ih _ hup]
      have hstep : applyLast stagedKey updateRow k (s :: ss) r =
          applyLast stagedKey updateRow k ss (updateRow r s) := by
        rw [applyLast, applyLast, List.foldl_cons]
        congr 1
        simp [hk]
      rw [hstep]
    · have hup : lookupK keyOf k
          (gUpsert keyOf stagedKey updateRow mkRow tc s).1 = some r := by
        rw [lookupK_gUpsert_ne hk1 hk2 (fun hcon => hk hcon.symm) tc]
        exact h
      rw [ih _ hup]
      have hstep : applyLast stagedKey updateRow k (s :: ss) r =
          applyLast stagedKey updateRow k ss r := by
        rw [applyLast, applyLast, List.foldl_cons]
        congr 1
        simp [hk]
      rw [hstep]

/-- A later update with staged row `s` erases earlier k-updates. -/
theorem updateRow_applyLast
    (hA : ∀ r s s', updateRow (updateRow r s') s = updateRow r s)
    (k : K) :
    ∀ (ss : List S) (y : Row) (s : S),
      updateRow (applyLast stagedKey updateRow k ss y) s = updateRow y s := by
  intro ss
  induction ss with
  | nil => intro y s; rfl
  | cons s0 ss ih =>
    intro y s
    by_cases h0 : stagedKey s0 = k
    · have hstep : applyLast stagedKey updateRow k (s0 :: ss) y =
          applyLast stagedKey updateRow k ss (updateRow y s0) := by
        rw [applyLast, applyLast, List.foldl_cons]
        congr 1
        simp [h0]
      rw [hstep, ih, hA]
    · have hstep : applyLast stagedKey updateRow k (s0 :: ss) y =
          applyLast stagedKey updateRow k ss y := by
        rw [applyLast, applyLast, List.foldl_cons]
        congr 1
        simp [h0]
      rw [hstep, ih]

/-- Master stability: the row found at key `k` after the fold is a fixed
point of the fold's k-relevant updates. -/
theorem applyLast_gFold_fixed
    (hk1 : ∀ r s, keyOf (updateRow r s) = keyOf r)
    (hk2 : ∀ c s, keyOf (mkRow c s) = stagedKey s)
    (hA : ∀ r s s', updateRow (updateRow r s') s = updateRow r s)
    (hB : ∀ c s, updateRow (mkRow c s) s = mkRow c s) :
    ∀ (ss : List S) (tc : List Row × Nat) {k : K} {r1 : Row},
      lookupK keyOf k (gFold keyOf stagedKey updateRow mkRow ss tc).1 = some r1 →
      applyLast stagedKey updateRow k ss r1 = r1 := by
  intro ss
  induction ss with
  | nil => intro tc k r1 _; rfl
  | cons s ss ih =>
    intro tc k r1 h
    rw [gFold, List.foldl_cons,
      show List.foldl (gUpsert keyOf stagedKey updateRow mkRow)
        (gUpsert keyOf stagedKey updateRow mkRow tc s) ss =
        gFold keyOf stagedKey updateRow mkRow ss
          (gUpsert keyOf stagedKey updateRow mkRow tc s) from rfl] at h
    by_cases hk : stagedKey s = k
    · have hstep : applyLast stagedKey updateRow k (s :: ss) r1 =
          applyLast stagedKey updateRow k ss (updateRow r1 s) := by
        rw [applyLast, applyLast, List.foldl_cons]
        congr 1
        simp [hk]
      rw [hstep]
      -- the upserted table holds a row `r0` at `k` fixed by `updateRow · s`
      have hup := lookupK_gUpsert_self hk1 hk2 tc s
      rw [hk] at hup
      set r0 := (match lookupK keyOf k tc.1 with
                 | some r => updateRow r s
                 | none => mkRow tc.2 s) with hr0
      have hfix : updateRow r0 s = r0 := by
        rw [hr0]
        cases lookupK keyOf k tc.1 with
        | some r => exact hA r s s
        | none => exact hB tc.2 s
      have hr1 : r1 = applyLast stagedKey updateRow k ss r0 := by
        have := lookupK_gFold_present hk1 hk2 ss _ hup
        rw [this] at h
        exact (Option.some.inj h).symm
      rw [hr1, updateRow_applyLast hA, hfix]
    · have hstep : applyLast stagedKey updateRow k (s :: ss) r1 =
          applyLast stagedKey updateRow k ss r1 := by
        rw [applyLast, applyLast, List.foldl_cons]
        congr 1
        simp [hk]
      rw [hstep]
      exact ih _ h

/-- When every staged key is already present, the fold only updates:
the key sequence and the counter are unchanged. -/
theorem gFold_keys_counter
    (hk1 : ∀ r s, keyOf (updateRow r s) = keyOf r)
    (hk2 : ∀ c s, keyOf (mkRow c s) = stagedKey s) :
    ∀ (ss : List S) (tc : List Row × Nat),
      (∀ s ∈ ss, stagedKey s ∈ tc.1.map keyOf) →
      (gFold keyOf stagedKey updateRow mkRow ss tc).1.map keyOf =
        tc.1.map keyOf ∧
      (gFold keyOf stagedKey updateRow mkRow ss tc).2 = tc.2 := by
  intro ss
  induction ss with
  | nil => intro tc _; exact ⟨rfl, rfl⟩
  | cons s ss ih =>
    intro tc h
    have hs := h s (List.mem_cons_self _ _)
    have hup : gUpsert keyOf stagedKey updateRow mkRow tc s =
        (tc.1.map (fun r =>
          if keyOf r = stagedKey s then updateRow r s else r), tc.2) := by
      rw [gUpsert, if_pos (hasK_iff_mem_keys.2 hs)]
    have hkeys : (gUpsert keyOf stagedKey updateRow mkRow tc s).1.map keyOf =
        tc.1.map keyOf := by
      rw [hup, List.map_map]
      apply List.map_congr_left
      intro r _
      by_cases hr : keyOf r = stagedKey s
      · simp [hr, hk1]
      · simp [hr]
    rw [gFold, List.foldl_cons,
      show List.foldl (gUpsert keyOf stagedKey updateRow mkRow)
        (gUpsert keyOf stagedKey updateRow mkRow tc s) ss =
        gFold keyOf stagedKey updateRow mkRow ss
          (gUpsert keyOf stagedKey updateRow mkRow tc s) from rfl]
    obtain ⟨h1, h2⟩ := ih (gUpsert keyOf stagedKey updateRow mkRow tc s)
      (fun s' hs' => by
        rw [hkeys]
        exact h s' (List.mem_cons_of_mem _ hs'))
    refine ⟨h1.trans hkeys, h2.trans ?_⟩
    rw [hup]

/-- Upserts preserve distinctness of the table's keys. -/
theorem nodup_gFold
    (hk1 : ∀ r s, keyOf (updateRow r s) = keyOf r)
    (hk2 : ∀ c s, keyOf (mkRow c s) = stagedKey s) :
    ∀ (ss : List S) (tc : List Row × Nat),
      (tc.1.map keyOf).Nodup →
      ((gFold keyOf stagedKey updateRow mkRow ss tc).1.map keyOf).Nodup := by
  intro ss
  induction ss with
  | nil => intro tc h; exact h
  | cons s ss ih =>
    intro tc h
    rw [gFold, List.foldl_cons,
      show List.foldl (gUpsert keyOf stagedKey updateRow mkRow)
        (gUpsert keyOf stagedKey updateRow mkRow tc s) ss =
        gFold keyOf stagedKey updateRow mkRow ss
          (gUpsert keyOf stagedKey updateRow mkRow tc s) from rfl]
    apply ih
    rw [gUpsert]
    by_cases hmem : tc.1.any (fun r => keyOf r = stagedKey s)
    · rw [if_pos hmem]
      have hkeys : (tc.1.map (fun r =>
          if keyOf r = stagedKey s then updateRow r s else r)).map keyOf =
          tc.1.map keyOf := by
        rw [List.map_map]
        apply List.map_congr_left
        intro r _
        by_cases hr : keyOf r = stagedKey s
        · simp [hr, hk1]
        · simp [hr]
      rw [hkeys]
      exact h
    · rw [if_neg hmem, List.map_append]
      rw [List.nodup_append]
      refine ⟨h, by simp, ?_⟩
      intro k hk1' hk2'
      simp only [List.map_cons, List.map_nil, List.mem_singleton, hk2] at hk2'
      exact hmem (hasK_iff_mem_keys.2 (hk2' ▸ hk1'))

/-- Two tables with distinct keys, the same key sequence, and the same
lookups are equal. -/
theorem table_ext :
    ∀ {t1 t2 : List Row},
      (t1.map keyOf).Nodup → t1.map keyOf = t2.map keyOf →
      (∀ k, lookupK keyOf k t1 = lookupK keyOf k t2) → t1 = t2 := by
  intro t1
  induction t1 with
  | nil =>
    intro t2 _ hk _
    have : t2.map keyOf = [] := hk.symm
    exact (List.map_eq_nil.mp this).symm
  | cons a t1' ih =>
    intro t2 hn hk hl
    cases t2 with
    | nil => exact absurd hk (by simp)
    | cons b t2' =>
      simp only [List.map_cons, List.cons.injEq] at hk
      obtain ⟨hab, htail⟩ := hk
      have hhead : a = b := by
        have h1 := hl (keyOf a)
        rw [lookupK, lookupK, List.find?_cons_of_pos _ (by simp),
          List.find?_cons_of_pos _ (by simp [hab])] at h1
        exact Option.some.inj h1
      subst hhead
      have htails : t1' = t2' := by
        apply ih (List.Nodup.of_cons hn) htail
        intro k
        by_cases hka : k = keyOf a
        · subst hka
          have hnotin : keyOf a ∉ t1'.map keyOf := by
            rw [List.map_cons] at hn
            exact (List.nodup_cons.1 hn).1
          rw [lookupK, lookupK, List.find?_eq_none.2, List.find?_eq_none.2]
          · intro x hx
            simp only [decide_eq_true_eq]
            intro hcon
            exact hnotin (htail ▸ List.mem_map.2 ⟨x, hx, hcon⟩)
          · intro x hx
            simp only [decide_eq_true_eq]
            intro hcon
            exact hnotin (List.mem_map.2 ⟨x, hx, hcon⟩)
        · have hpa : ¬ ((fun r => decide (keyOf r = k)) a = true) := by
            simp only [decide_eq_true_eq]
            exact fun hcon => hka hcon.symm
          have h0 := hl k
          rw [show lookupK keyOf k (a :: t1') =
              (a :: t1').find? (fun r => decide (keyOf r = k)) from rfl,
            show lookupK keyOf k (a :: t2') =
              (a :: t2').find? (fun r => decide (keyOf r = k)) from rfl,
            @List.find?_cons_of_neg _ (fun r => decide (keyOf r = k)) a t1' hpa,
            @List.find?_cons_of_neg _ (fun r => decide (keyOf r = k)) a t2' hpa] at h0
          exact h0
      rw [htails]

/-- Re-running an identical staged list leaves the table unchanged
(whatever the counter), and the counter is not advanced. -/
theorem gFold_idem
    (hk1 : ∀ r s, keyOf (updateRow r s) = keyOf r)
    (hk2 : ∀ c s, keyOf (mkRow c s) = stagedKey s)
    (hA : ∀ r s s', updateRow (updateRow r s') s = updateRow r s)
    (hB : ∀ c s, updateRow (mkRow c s) s = mkRow c s)
    (ss : List S) (tc : List Row × Nat) (c' : Nat)
    (hn : (tc.1.map keyOf).Nodup) :
    gFold keyOf stagedKey updateRow mkRow ss
        ((gFold keyOf stagedKey updateRow mkRow ss tc).1, c') =
      ((gFold keyOf stagedKey updateRow mkRow ss tc).1, c') := by
  set T1 := (gFold keyOf stagedKey updateRow mkRow ss tc).1 with hT1
  have hpresent : ∀ s ∈ ss, stagedKey s ∈ T1.map keyOf := by
    intro s hs
    exact hasK_gFold hk1 hk2 ss tc (Or.inr ⟨s, hs, rfl⟩)
  have hkc := gFold_keys_counter hk1 hk2 ss (T1, c') hpresent
  have hlook : ∀ k, lookupK keyOf k
      (gFold keyOf stagedKey updateRow mkRow ss (T1, c')).1 =
      lookupK keyOf k T1 := by
    intro k
    cases hmem : lookupK keyOf k T1 with
    | none =>
      have hkeys := hkc.1
      rw [lookupK, List.find?_eq_none] at hmem ⊢
      intro x hx
      have : keyOf x ∈ T1.map keyOf := by
        rw [← hkeys]
        exact List.mem_map.2 ⟨x, hx, rfl⟩
      obtain ⟨y, hy, hky⟩ := List.mem_map.1 this
      simp only [decide_eq_true_eq]
      intro hcon
      exact absurd (by simpa using hmem y hy) (by
        rw [hky, hcon]
        simp)
    | some r1 =>
      have hfix : applyLast stagedKey updateRow k ss r1 = r1 :=
        applyLast_gFold_fixed hk1 hk2 hA hB ss tc hmem
      have := lookupK_gFold_present hk1 hk2 ss (T1, c') (k := k) (r := r1) hmem
      rw [this, hfix]
  have htable : (gFold keyOf stagedKey updateRow mkRow ss (T1, c')).1 = T1 := by
    refine table_ext ?_ hkc.1 hlook
    rw [hkc.1]
    exact nodup_gFold hk1 hk2 ss tc hn
  have hcounter := hkc.2
  exact Prod.ext htable hcounter

/-- One upsert keeps, verbatim, any row whose key the staged row does
not carry. -/
theorem mem_gUpsert_untouched {tc : List Row × Nat} {s : S} {r : Row}
    (hne : stagedKey s ≠ keyOf r) (hmem : r ∈ tc.1) :
    r ∈ (gUpsert keyOf stagedKey updateRow mkRow tc s).1 := by
  rw [gUpsert]
  by_cases hany : tc.1.any (fun x => keyOf x = stagedKey s)
  · rw [if_pos hany]
    refine List.mem_map.2 ⟨r, hmem, ?_⟩
    have hk : ¬ keyOf r = stagedKey s := fun h => hne h.symm
    simp [hk]
  · rw [if_neg hany]
    exact List.mem_append_left _ hmem

/-- A whole fold keeps, verbatim, any row whose key no staged row
carries. -/
theorem mem_gFold_untouched {ss : List S} {tc : List Row × Nat} {r : Row}
    (hss : ∀ s ∈ ss, stagedKey s ≠ keyOf r) (hmem : r ∈ tc.1) :
    r ∈ (gFold keyOf stagedKey updateRow mkRow ss tc).1 := by
  induction ss generalizing tc with
  | nil => exact hmem
  | cons s ss ih =>
    rw [gFold, List.foldl_cons]
    exact ih (fun x hx => hss x (List.mem_cons_of_mem s hx))
      (mem_gUpsert_untouched (hss s (List.mem_cons_self s ss)) hmem)

/-- A fold keeps, for every pre-existing row, a row with the same key
and the same value of any update-invariant observation (such as the
surrogate id): upserts never delete and never re-key. -/
theorem gFold_observation {B : Type} (f : Row → B)
    (hk1 : ∀ r s, keyOf (updateRow r s) = keyOf r)
    (hf : ∀ r s, f (updateRow r s) = f r) :
    ∀ (ss : List S) (tc : List Row × Nat) (r : Row), r ∈ tc.1 →
      ∃ r' ∈ (gFold keyOf stagedKey updateRow mkRow ss tc).1,
        keyOf r' = keyOf r ∧ f r' = f r := by
  intro ss
  induction ss with
  | nil => exact fun tc r h => ⟨r, h, rfl, rfl⟩
  | cons s ss ih =>
    intro tc r hmem
    have hstep : ∃ r1 ∈ (gUpsert keyOf stagedKey updateRow mkRow tc s).1,
        keyOf r1 = keyOf r ∧ f r1 = f r := by
      rw [gUpsert]
      by_cases hany : tc.1.any (fun x => keyOf x = stagedKey s)
      · rw [if_pos hany]
        by_cases hk : keyOf r = stagedKey s
        · exact ⟨updateRow r s, List.mem_map.2 ⟨r, hmem, by simp [hk]⟩,
            hk1 r s, hf r s⟩
        · exact ⟨r, List.mem_map.2 ⟨r, hmem, by simp [hk]⟩, rfl, rfl⟩
      · rw [if_neg hany]
        exact ⟨r, List.mem_append_left _ hmem, rfl, rfl⟩
    obtain ⟨r1, hr1, hkr1, hfr1⟩ := hstep
    obtain ⟨r2, hr2, hkr2, hfr2⟩ := ih _ r1 hr1
    rw [gFold, List.foldl_cons]
    exact ⟨r2, hr2, hkr2.trans hkr1, hfr2.trans hfr1⟩

end GenUpsertLemmas

/-! ## UpsertEngine (`src/load/load_to_db.py`)

The destination schema of `create_tables_if_not_exists`: `recipes` with
`UNIQUE (source_name, source_id)`, `ingredients` with
`UNIQUE normalized_name`, `recipe_ingredients` with
`PRIMARY KEY (recipe_id, ingredient_id)`.  `VARCHAR`/`TEXT` columns hold
strings: staged values reach them through MySQL's string coercion,
modelled by `pyStr`. -/

structure RecipeRow where
  id : Nat
  source_name : String
  source_id : String
  name : Option String
  category : Option String
  area : Option String
  instructions : Option String
  thumbnail : Option String
  deriving DecidableEq, Repr

structure IngredientRow where
  id : Nat
  name : String
  normalized_name : String
  deriving DecidableEq, Repr

structure LinkRow where
  recipe_id : Nat
  ingredient_id : Nat
  measure : Option String
  deriving DecidableEq, Repr

/-- The store: the three tables plus the two auto-increment counters. -/
structure Store where
  recipes : List RecipeRow
  ingredients : List IngredientRow
  links : List LinkRow
  nextRecipeId : Nat
  nextIngredientId : Nat
  deriving DecidableEq, Repr

theorem store_ext {a b : Store} (hr : a.recipes = b.recipes)
    (hi : a.ingredients = b.ingredients) (hl : a.links = b.links)
    (hnr : a.nextRecipeId = b.nextRecipeId)
    (hni : a.nextIngredientId = b.nextIngredientId) : a = b := by
  cases a; cases b
  simp only at hr hi hl hnr hni
  rw [hr, hi, hl, hnr, hni]

/-- The uniqueness constraints the schema enforces on every reachable
store state. -/
def WFStore (st : Store) : Prop :=
  (st.recipes.map (fun r => (r.source_name, r.source_id))).Nodup ∧
  (st.ingredients.map (fun i => i.normalized_name)).Nodup ∧
  (st.links.map (fun l => (l.recipe_id, l.ingredient_id))).Nodup

/-- A row of `recipes_stage` (after `to_sql`'s value rendering). -/
structure StagedRecipe where
  source_name : String
  source_id : String
  name : Option String
  category : Option String
  area : Option String
  instructions : Option String
  thumbnail : Option String
  deriving DecidableEq, Repr

/-- A row of `ingredients_stage`. -/
structure StagedIngredient where
  name : String
  normalized_name : String
  deriving DecidableEq, Repr

/-- A row of `recipe_ing_stage`. -/
structure MapRow where
  source_name : String
  source_id : String
  normalized_name : String
  measure : Option String
  deriving DecidableEq, Repr

/-- `drop_duplicates` keeping the first row per key. -/
def dedupFirstBy {A K : Type} [DecidableEq K] (key : A → K) :
    List A → List K → List A
  | [], _ => []
  | a :: rest, seen =>
    if key a ∈ seen then dedupFirstBy key rest seen
    else a :: dedupFirstBy key rest (key a :: seen)

/-- Phase 1 staging:
`df[cols].drop_duplicates(subset=['source_name','source_id'])` (on the
frame's raw values), then `to_sql`'s string rendering. -/
def stageRecipes (df : List NRow) : List StagedRecipe :=
  (dedupFirstBy (fun r => (r.source_name, r.source_id)) df []).map
    (fun r =>
      { source_name := pyStr r.source_name
        source_id := r.source_id
        name := r.name.map pyStr
        category := r.category.map pyStr
        area := r.area.map pyStr
        instructions := r.instructions.map pyStr
        thumbnail := r.thumbnail.map pyStr })

/-- The `all_ing_rows` entries contributed by one recipe row:
`if not ing.get("ingredient"): continue`, then
`name = ing["ingredient"].strip()`, `normalized = name.lower().strip()`. -/
def ingRowsOf (r : NRow) : List StagedIngredient :=
  r.ingredients.filterMap (fun ing =>
    if ing.ingredient = "" then none
    else some
      { name := String.mk (pyStrip ing.ingredient.data)
        normalized_name :=
          String.mk (pyStrip (pyLower (pyStrip ing.ingredient.data))) })

/-- Phase 2 staging: all ingredient rows of the frame, deduplicated by
`normalized_name` (first seen wins). -/
def stageIngredients (df : List NRow) : List StagedIngredient :=
  dedupFirstBy (fun i => i.normalized_name) ((df.map ingRowsOf).join) []

/-- The `mapping_rows` entries contributed by one recipe row. -/
def mapRowsOf (r : NRow) : List MapRow :=
  r.ingredients.filterMap (fun ing =>
    if ing.ingredient = "" then none
    else some
      { source_name := pyStr r.source_name
        source_id := r.source_id
        normalized_name :=
          String.mk (pyStrip (pyLower (pyStrip ing.ingredient.data)))
        measure := ing.measure.map pyStr })

/-- Phase 3 staging: `recipe_ing_stage`, not deduplicated. -/
def mapStage (df : List NRow) : List MapRow :=
  (df.map mapRowsOf).join

/-- The phase-3 `INSERT ... SELECT` join: resolve each staged mapping to
surrogate ids by natural key; rows whose join finds no partner are
simply not produced by the `SELECT`. -/
def resolveLinks (recipesT : List RecipeRow) (ingT : List IngredientRow)
    (ms : List MapRow) : List LinkRow :=
  ms.filterMap (fun m =>
    match recipesT.find? (fun r =>
        r.source_name = m.source_name ∧ r.source_id = m.source_id),
      ingT.find? (fun i => i.normalized_name = m.normalized_name) with
    | some r, some i => some ⟨r.id, i.id, m.measure⟩
    | _, _ => none)

def recipeKey (r : RecipeRow) : String × String := (r.source_name, r.source_id)

def stagedRecipeKey (s : StagedRecipe) : String × String :=
  (s.source_name, s.source_id)

/-- `ON DUPLICATE KEY UPDATE` of phase 1: overwrite every non-key column. -/
def updateRecipeRow (r : RecipeRow) (s : StagedRecipe) : RecipeRow :=
  { r with
    name := s.name
    category := s.category
    area := s.area
    instructions := s.instructions
    thumbnail := s.thumbnail }

def mkRecipeRow (c : Nat) (s : StagedRecipe) : RecipeRow :=
  ⟨c, s.source_name, s.source_id, s.name, s.category, s.area,
   s.instructions, s.thumbnail⟩

/-- `ON DUPLICATE KEY UPDATE` of phase 2: overwrite `name` only. -/
def updateIngredientRow (i : IngredientRow) (s : StagedIngredient) :
    IngredientRow :=
  { i with name := s.name }

def mkIngredientRow (c : Nat) (s : StagedIngredient) : IngredientRow :=
  ⟨c, s.name, s.normalized_name⟩

def linkKey (l : LinkRow) : Nat × Nat := (l.recipe_id, l.ingredient_id)

/-- `ON DUPLICATE KEY UPDATE` of phase 3: overwrite `measure` only. -/
def updateLinkRow (l : LinkRow) (s : LinkRow) : LinkRow :=
  { l with measure := s.measure }

/-- `recipe_ingredients` has no auto-increment column. -/
def mkLinkRow (_ : Nat) (s : LinkRow) : LinkRow := s

/-- Phase 1: upsert the staged recipes. -/
def recipePhase (df : List NRow) (st : Store) : Store :=
  { st with
    recipes := (gFold recipeKey stagedRecipeKey updateRecipeRow mkRecipeRow
      (stageRecipes df) (st.recipes, st.nextRecipeId)).1
    nextRecipeId := (gFold recipeKey stagedRecipeKey updateRecipeRow mkRecipeRow
      (stageRecipes df) (st.recipes, st.nextRecipeId)).2 }

/-- Phase 2: upsert the staged ingredients. -/
def ingredientPhase (df : List NRow) (st : Store) : Store :=
  { st with
    ingredients := (gFold (fun i : IngredientRow => i.normalized_name)
      (fun s : StagedIngredient => s.normalized_name)
      updateIngredientRow mkIngredientRow
      (stageIngredients df) (st.ingredients, st.nextIngredientId)).1
    nextIngredientId := (gFold (fun i : IngredientRow => i.normalized_name)
      (fun s : StagedIngredient => s.normalized_name)
      updateIngredientRow mkIngredientRow
      (stageIngredients df) (st.ingredients, st.nextIngredientId)).2 }

/-- The resolved link rows of a batch: the phase-3 `SELECT` evaluated
against the recipes and ingredients tables as committed by phases 1–2. -/
def batchLinkRows (df : List NRow) (st : Store) : List LinkRow :=
  resolveLinks (ingredientPhase df (recipePhase df st)).recipes
    (ingredientPhase df (recipePhase df st)).ingredients (mapStage df)

/-- The store after a non-empty load: phases 1–3 in order. -/
def applyLoad (df : List NRow) (st : Store) : Store :=
  { ingredientPhase df (recipePhase df st) with
    links := (gFold linkKey linkKey updateLinkRow mkLinkRow
      (batchLinkRows df st)
      ((ingredientPhase df (recipePhase df st)).links, 0)).1 }

structure LoadCounts where
  recipes_loaded : Nat
  ingredients_loaded : Nat
  mappings_loaded : Nat
  deriving DecidableEq, Repr

/-- `load_parquet_to_db`: empty frames are a no-op returning zeros; a
non-empty frame runs the three phases and returns the post-upsert
`COUNT(*)` of each table. -/
def loadParquetToDb (df : List NRow) (st : Store) : Store × LoadCounts :=
  if df.isEmpty then (st, ⟨0, 0, 0⟩)
  else
    (applyLoad df st,
     ⟨(applyLoad df st).recipes.length, (applyLoad df st).ingredients.length,
      (applyLoad df st).links.length⟩)

theorem loadParquetToDb_ne (df : List NRow) (st : Store) (hne : df ≠ []) :
    loadParquetToDb df st =
      (applyLoad df st,
       ⟨(applyLoad df st).recipes.length, (applyLoad df st).ingredients.length,
        (applyLoad df st).links.length⟩) := by
  have hfalse : df.isEmpty = false := by
    cases df with
    | nil => exact absurd rfl hne
    | cons a l => rfl
  rw [loadParquetToDb, hfalse]
  rfl

/-- C10: an empty normalized batch makes `load_parquet_to_db` return
zero counts and write nothing: the store comes back exactly as it was,
whatever rows the tables already hold.  For a non-empty batch, the three
returned counts are the post-upsert `COUNT(*)` totals of the `recipes`,
`ingredients` and `recipe_ingredients` tables — total table sizes
including rows that predate the batch, not per-batch insert/update
counts. -/
theorem c10_counts_are_totals (df : List NRow) (st : Store) (hne : df ≠ []) :
    loadParquetToDb [] st = (st, ⟨0, 0, 0⟩) ∧
    (loadParquetToDb df st).2 =
      ⟨(loadParquetToDb df st).1.recipes.length,
       (loadParquetToDb df st).1.ingredients.length,
       (loadParquetToDb df st).1.links.length⟩ := by
  refine ⟨rfl, ?_⟩
  rw [loadParquetToDb_ne df st hne]

theorem c10_counts_are_totals_witness :
    ([(⟨.s "themealdb", "52940", none, none, none, none, none, []⟩ : NRow)] ≠
        ([] : List NRow)) ∧
      (loadParquetToDb [] (⟨[⟨7, "themealdb", "1", none, none, none, none,
            none⟩], [], [], 8, 1⟩ : Store) =
        (⟨[⟨7, "themealdb", "1", none, none, none, none, none⟩], [], [], 8, 1⟩,
         ⟨0, 0, 0⟩) ∧
       (loadParquetToDb
          [⟨.s "themealdb", "52940", none, none, none, none, none, []⟩]
          ⟨[⟨7, "themealdb", "1", none, none, none, none, none⟩], [], [], 8,
            1⟩).2 =
        ⟨(loadParquetToDb
            [⟨.s "themealdb", "52940", none, none, none, none, none, []⟩]
            ⟨[⟨7, "themealdb", "1", none, none, none, none, none⟩], [], [], 8,
              1⟩).1.recipes.length,
         (loadParquetToDb
            [⟨.s "themealdb", "52940", none, none, none, none, none, []⟩]
            ⟨[⟨7, "themealdb", "1", none, none, none, none, none⟩], [], [], 8,
              1⟩).1.ingredients.length,
         (loadParquetToDb
            [⟨.s "themealdb", "52940", none, none, none, none, none, []⟩]
            ⟨[⟨7, "themealdb", "1", none, none, none, none, none⟩], [], [], 8,
              1⟩).1.links.length⟩) :=
  ⟨by decide,
   c10_counts_are_totals
     [⟨.s "themealdb", "52940", none, none, none, none, none, []⟩]
     ⟨[⟨7, "themealdb", "1", none, none, none, none, none⟩], [], [], 8, 1⟩
     (by decide)⟩

/-- C9: the load is an additive merge, never a sync.  Every
`recipe_ingredients` row whose `(recipe_id, ingredient_id)` pair is not
among the batch's resolved link rows survives the load verbatim —
measure included — and every pre-existing recipe and ingredient row
keeps its key and its surrogate id; nothing is ever deleted. -/
theorem c9_additive_merge (df : List NRow) (st : Store) (l : LinkRow)
    (hmem : l ∈ st.links)
    (hnot : ∀ p ∈ batchLinkRows df st, linkKey p ≠ linkKey l) :
    l ∈ (loadParquetToDb df st).1.links ∧
    (∀ r ∈ st.recipes, ∃ r' ∈ (loadParquetToDb df st).1.recipes,
        recipeKey r' = recipeKey r ∧ r'.id = r.id) ∧
    (∀ i ∈ st.ingredients, ∃ i' ∈ (loadParquetToDb df st).1.ingredients,
        i'.normalized_name = i.normalized_name ∧ i'.id = i.id) := by
  by_cases hdf : df = []
  · subst hdf
    refine ⟨hmem, ?_, ?_⟩
    · exact fun r hr => ⟨r, hr, rfl, rfl⟩
    · exact fun i hi => ⟨i, hi, rfl, rfl⟩
  · rw [loadParquetToDb_ne df st hdf]
    refine ⟨?_, ?_, ?_⟩
    · exact mem_gFold_untouched hnot hmem
    · exact fun r hr =>
        @gFold_observation RecipeRow (String × String) StagedRecipe _
          recipeKey stagedRecipeKey updateRecipeRow mkRecipeRow Nat
          RecipeRow.id (fun _ _ => rfl) (fun _ _ => rfl)
          (stageRecipes df) (st.recipes, st.nextRecipeId) r hr
    · exact fun i hi =>
        @gFold_observation IngredientRow String StagedIngredient _
          (fun i => i.normalized_name) (fun s => s.normalized_name)
          updateIngredientRow mkIngredientRow Nat
          IngredientRow.id (fun _ _ => rfl) (fun _ _ => rfl)
          (stageIngredients df) (st.ingredients, st.nextIngredientId) i hi

theorem c9_additive_merge_witness :
    ((⟨7, 3, some "1 cup"⟩ : LinkRow) ∈
        (⟨[⟨7, "themealdb", "1", none, none, none, none, none⟩],
          [⟨3, "Salt", "salt"⟩], [⟨7, 3, some "1 cup"⟩], 8, 4⟩ : Store).links) ∧
    (∀ p ∈ batchLinkRows
        [⟨.s "themealdb", "52940", none, none, none, none, none,
          [⟨"pepper", some (.s "to taste")⟩]⟩]
        ⟨[⟨7, "themealdb", "1", none, none, none, none, none⟩],
         [⟨3, "Salt", "salt"⟩], [⟨7, 3, some "1 cup"⟩], 8, 4⟩,
      linkKey p ≠ linkKey (⟨7, 3, some "1 cup"⟩ : LinkRow)) ∧
    ((⟨7, 3, some "1 cup"⟩ : LinkRow) ∈
      (loadParquetToDb
        [⟨.s "themealdb", "52940", none, none, none, none, none,
          [⟨"pepper", some (.s "to taste")⟩]⟩]
        ⟨[⟨7, "themealdb", "1", none, none, none, none, none⟩],
         [⟨3, "Salt", "salt"⟩], [⟨7, 3, some "1 cup"⟩], 8, 4⟩).1.links ∧
     (∀ r ∈ (⟨[⟨7, "themealdb", "1", none, none, none, none, none⟩],
          [⟨3, "Salt", "salt"⟩], [⟨7, 3, some "1 cup"⟩], 8, 4⟩ : Store).recipes,
        ∃ r' ∈ (loadParquetToDb
            [⟨.s "themealdb", "52940", none, none, none, none, none,
              [⟨"pepper", some (.s "to taste")⟩]⟩]
            ⟨[⟨7, "themealdb", "1", none, none, none, none, none⟩],
             [⟨3, "Salt", "salt"⟩], [⟨7, 3, some "1 cup"⟩], 8, 4⟩).1.recipes,
          recipeKey r' = recipeKey r ∧ r'.id = r.id) ∧
     (∀ i ∈ (⟨[⟨7, "themealdb", "1", none, none, none, none, none⟩],
          [⟨3, "Salt", "salt"⟩], [⟨7, 3, some "1 cup"⟩], 8, 4⟩ : Store).ingredients,
        ∃ i' ∈ (loadParquetToDb
            [⟨.s "themealdb", "52940", none, none, none, none, none,
              [⟨"pepper", some (.s "to taste")⟩]⟩]
            ⟨[⟨7, "themealdb", "1", none, none, none, none, none⟩],
             [⟨3, "Salt", "salt"⟩], [⟨7, 3, some "1 cup"⟩], 8, 4⟩).1.ingredients,
          i'.normalized_name = i.normalized_name ∧ i'.id = i.id)) :=
  ⟨by decide, by decide,
   c9_additive_merge
     [⟨.s "themealdb", "52940", none, none, none, none, none,
       [⟨"pepper", some (.s "to taste")⟩]⟩]
     ⟨[⟨7, "themealdb", "1", none, none, none, none, none⟩],
      [⟨3, "Salt", "salt"⟩], [⟨7, 3, some "1 cup"⟩], 8, 4⟩
     ⟨7, 3, some "1 cup"⟩ (by decide) (by decide)⟩

theorem recipeFold_idem (ss : List StagedRecipe) (tc : List RecipeRow × Nat)
    (c' : Nat) (hn : (tc.1.map recipeKey).Nodup) :
    gFold recipeKey stagedRecipeKey updateRecipeRow mkRecipeRow ss
        ((gFold recipeKey stagedRecipeKey updateRecipeRow mkRecipeRow ss
          tc).1, c') =
      ((gFold recipeKey stagedRecipeKey updateRecipeRow mkRecipeRow ss
        tc).1, c') :=
  @gFold_idem RecipeRow (String × String) StagedRecipe _
    recipeKey stagedRecipeKey updateRecipeRow mkRecipeRow
    (fun _ _ => rfl) (fun _ _ => rfl) (fun _ _ _ => rfl)
    (fun _ _ => rfl) ss tc c' hn

theorem ingredientFold_idem (ss : List StagedIngredient)
    (tc : List IngredientRow × Nat) (c' : Nat)
    (hn : (tc.1.map (fun i => i.normalized_name)).Nodup) :
    gFold (fun i : IngredientRow => i.normalized_name)
        (fun s : StagedIngredient => s.normalized_name)
        updateIngredientRow mkIngredientRow ss
        ((gFold (fun i : IngredientRow => i.normalized_name)
          (fun s : StagedIngredient => s.normalized_name)
          updateIngredientRow mkIngredientRow ss tc).1, c') =
      ((gFold (fun i : IngredientRow => i.normalized_name)
        (fun s : StagedIngredient => s.normalized_name)
        updateIngredientRow mkIngredientRow ss tc).1, c') :=
  @gFold_idem IngredientRow String StagedIngredient _
    (fun i => i.normalized_name) (fun s => s.normalized_name)
    updateIngredientRow mkIngredientRow
    (fun _ _ => rfl) (fun _ _ => rfl) (fun _ _ _ => rfl)
    (fun _ _ => rfl) ss tc c' hn

theorem linkFold_idem (ss : List LinkRow) (tc : List LinkRow × Nat)
    (c' : Nat) (hn : (tc.1.map linkKey).Nodup) :
    gFold linkKey linkKey updateLinkRow mkLinkRow ss
        ((gFold linkKey linkKey updateLinkRow mkLinkRow ss tc).1, c') =
      ((gFold linkKey linkKey updateLinkRow mkLinkRow ss tc).1, c') :=
  @gFold_idem LinkRow (Nat × Nat) LinkRow _
    linkKey linkKey updateLinkRow mkLinkRow
    (fun _ _ => rfl) (fun _ _ => rfl) (fun _ _ _ => rfl)
    (fun _ _ => rfl) ss tc c' hn

/-- When the constraints of the schema hold of the starting store,
running the three phases on the output of the same batch's run changes
nothing. -/
theorem applyLoad_idem (df : List NRow) (st : Store) (hwf : WFStore st) :
    applyLoad df (applyLoad df st) = applyLoad df st := by
  have h1 : gFold recipeKey stagedRecipeKey updateRecipeRow mkRecipeRow
      (stageRecipes df)
      ((applyLoad df st).recipes, (applyLoad df st).nextRecipeId) =
      ((applyLoad df st).recipes, (applyLoad df st).nextRecipeId) :=
    recipeFold_idem (stageRecipes df) (st.recipes, st.nextRecipeId)
      (applyLoad df st).nextRecipeId hwf.1
  have h2 : gFold (fun i : IngredientRow => i.normalized_name)
      (fun s : StagedIngredient => s.normalized_name)
      updateIngredientRow mkIngredientRow (stageIngredients df)
      ((applyLoad df st).ingredients, (applyLoad df st).nextIngredientId) =
      ((applyLoad df st).ingredients, (applyLoad df st).nextIngredientId) :=
    ingredientFold_idem (stageIngredients df)
      (st.ingredients, st.nextIngredientId)
      (applyLoad df st).nextIngredientId hwf.2.1
  have e1 : recipePhase df (applyLoad df st) = applyLoad df st := by
    refine store_ext ?_ rfl rfl ?_ rfl
    · exact congrArg Prod.fst h1
    · exact congrArg Prod.snd h1
  have e2 : ingredientPhase df (applyLoad df st) = applyLoad df st := by
    refine store_ext rfl ?_ rfl rfl ?_
    · exact congrArg Prod.fst h2
    · exact congrArg Prod.snd h2
  have e12 : ingredientPhase df (recipePhase df (applyLoad df st)) =
      applyLoad df st := by rw [e1, e2]
  have e3 : batchLinkRows df (applyLoad df st) = batchLinkRows df st := by
    simp only [batchLinkRows]
    rw [e12]
    rfl
  have h3 : gFold linkKey linkKey updateLinkRow mkLinkRow
      (batchLinkRows df st) ((applyLoad df st).links, 0) =
      ((applyLoad df st).links, 0) :=
    linkFold_idem (batchLinkRows df st) (st.links, 0) 0 hwf.2.2
  have hl : (gFold linkKey linkKey updateLinkRow mkLinkRow
      (batchLinkRows df (applyLoad df st))
      ((ingredientPhase df (recipePhase df (applyLoad df st))).links, 0)).1 =
      (applyLoad df st).links := by
    rw [e3, show (ingredientPhase df (recipePhase df (applyLoad df
      st))).links = (applyLoad df st).links from congrArg Store.links e12]
    calc (gFold linkKey linkKey updateLinkRow mkLinkRow
          (batchLinkRows df st) ((applyLoad df st).links, 0)).1
        = ((applyLoad df st).links, 0).1 := congrArg Prod.fst h3
      _ = (applyLoad df st).links := rfl
  refine store_ext ?_ ?_ ?_ ?_ ?_
  · exact (show (ingredientPhase df (recipePhase df (applyLoad df
      st))).recipes = (applyLoad df st).recipes from
      congrArg Store.recipes e12)
  · exact (show (ingredientPhase df (recipePhase df (applyLoad df
      st))).ingredients = (applyLoad df st).ingredients from
      congrArg Store.ingredients e12)
  · exact hl
  · exact (show (ingredientPhase df (recipePhase df (applyLoad df
      st))).nextRecipeId = (applyLoad df st).nextRecipeId from
      congrArg Store.nextRecipeId e12)
  · exact (show (ingredientPhase df (recipePhase df (applyLoad df
      st))).nextIngredientId = (applyLoad df st).nextIngredientId from
      congrArg Store.nextIngredientId e12)

/-- C1: `load_parquet_to_db` is idempotent on every store satisfying the
schema's uniqueness constraints.  Feeding the identical non-empty
normalized batch a second time returns the same counts and leaves every
table — row contents included — exactly as after the first run. -/
theorem c1_idempotent_upsert (df : List NRow) (st : Store)
    (hwf : WFStore st) (hne : df ≠ []) :
    loadParquetToDb df (loadParquetToDb df st).1 = loadParquetToDb df st := by
  have hfst : (loadParquetToDb df st).1 = applyLoad df st := by
    rw [loadParquetToDb_ne df st hne]
  rw [hfst, loadParquetToDb_ne df (applyLoad df st) hne,
    loadParquetToDb_ne df st hne, applyLoad_idem df st hwf]

theorem c1_idempotent_upsert_witness :
    WFStore (⟨[], [], [], 1, 1⟩ : Store) ∧
    ([(⟨.s "themealdb", "52940", some (.s "Kapsalon"), none, none, none,
        none, [⟨"salt", some (.s "to taste")⟩, ⟨"fries", some (.s "200g")⟩]⟩ :
        NRow)] ≠ ([] : List NRow)) ∧
    loadParquetToDb
        [⟨.s "themealdb", "52940", some (.s "Kapsalon"), none, none, none,
          none, [⟨"salt", some (.s "to taste")⟩, ⟨"fries", some (.s "200g")⟩]⟩]
        (loadParquetToDb
          [⟨.s "themealdb", "52940", some (.s "Kapsalon"), none, none, none,
            none, [⟨"salt", some (.s "to taste")⟩,
              ⟨"fries", some (.s "200g")⟩]⟩]
          ⟨[], [], [], 1, 1⟩).1 =
      loadParquetToDb
        [⟨.s "themealdb", "52940", some (.s "Kapsalon"), none, none, none,
          none, [⟨"salt", some (.s "to taste")⟩, ⟨"fries", some (.s "200g")⟩]⟩]
        ⟨[], [], [], 1, 1⟩ :=
  ⟨⟨by decide, by decide, by decide⟩, by decide,
   c1_idempotent_upsert
     [⟨.s "themealdb", "52940", some (.s "Kapsalon"), none, none, none,
       none, [⟨"salt", some (.s "to taste")⟩, ⟨"fries", some (.s "200g")⟩]⟩]
     ⟨[], [], [], 1, 1⟩ ⟨by decide, by decide, by decide⟩ (by decide)⟩

end RecipeEtl
